import Mathlib

/-!
Verification of the SitePeek extraction engine (`backend/utils/extractor.py`,
`backend/main.py`).  The Python code is shallowly embedded: strings are
processed as `List Char`, the BeautifulSoup document is a tree of elements,
each specific `re` pattern used by the code is embedded as a hand-written
scanner with Python `re.findall` leftmost, non-overlapping semantics, and
`urllib.parse.urlparse` / `urljoin` are embedded following the CPython
implementation (for inputs free of the control characters CPython strips).
-/

namespace SitePeek

/-! ## Character and string utilities -/

/-- ASCII lower-casing of one character, as `str.lower` acts on ASCII. -/
def charLower (c : Char) : Char :=
  if 'A' ≤ c ∧ c ≤ 'Z' then Char.ofNat (c.toNat + 32) else c

/-- Python whitespace characters (`str.split()` / `str.strip()` defaults),
restricted to ASCII. -/
def isPyWs (c : Char) : Bool :=
  c = ' ' ∨ c = '\t' ∨ c = '\n' ∨ c = '\r' ∨ c = '\x0b' ∨ c = '\x0c'

def lowerL (s : List Char) : List Char := s.map charLower

/-- `str.strip(chars)`: drop characters satisfying `p` from both ends. -/
def stripIf (p : Char → Bool) (s : List Char) : List Char :=
  ((s.dropWhile p).reverse.dropWhile p).reverse

/-- `str.strip()` (whitespace). -/
def stripWs (s : List Char) : List Char := stripIf isPyWs s

/-- `str.strip('"\'')`. -/
def stripQuotes (s : List Char) : List Char :=
  stripIf (fun c => c = '"' ∨ c = '\x27') s

/-- `str.split(sep)` for a one-character separator: Python semantics,
`"".split('/') = [""]`, `"a//b".split('/') = ["a","","b"]`. -/
def splitChar (sep : Char) : List Char → List (List Char)
  | [] => [[]]
  | c :: cs =>
    let r := splitChar sep cs
    if c = sep then [] :: r
    else
      match r with
      | [] => [[c]]
      | t :: ts => (c :: t) :: ts

/-- `str.split()` with no argument: split on whitespace runs, no empty pieces. -/
def splitPyWs (s : List Char) : List (List Char) :=
  let rec go : List Char → List Char → List (List Char)
    | acc, [] => if acc = [] then [] else [acc.reverse]
    | acc, c :: cs =>
      if isPyWs c then
        if acc = [] then go [] cs else acc.reverse :: go [] cs
      else go (c :: acc) cs
  go [] s

def startsWithL (pre s : List Char) : Bool :=
  match pre, s with
  | [], _ => true
  | _ :: _, [] => false
  | p :: ps, c :: cs => p = c && startsWithL ps cs

def endsWithL (suf s : List Char) : Bool :=
  startsWithL suf.reverse s.reverse

/-- Index of the first occurrence of `c`, as `str.find` (`none` for `-1`). -/
def findCharIdx (c : Char) : List Char → Option Nat
  | [] => none
  | d :: ds =>
    if d = c then some 0
    else (findCharIdx c ds).map (· + 1)

/-- Split at the first occurrence of `c`: `s.split(c, 1)` when `c` occurs. -/
def splitFirst (c : Char) (s : List Char) : Option (List Char × List Char) :=
  match s with
  | [] => none
  | d :: ds =>
    if d = c then some ([], ds)
    else (splitFirst c ds).map (fun p => (d :: p.1, p.2))

theorem splitFirst_append (c : Char) (s a b : List Char)
    (h : splitFirst c s = some (a, b)) : s = a ++ c :: b := by
  induction s generalizing a with
  | nil => simp [splitFirst] at h
  | cons d ds ih =>
    by_cases hd : d = c
    · simp [splitFirst, hd] at h
      simp [hd, ← h.1, ← h.2]
    · cases hsp : splitFirst c ds with
      | none => simp [splitFirst, hd, hsp] at h
      | some p =>
        simp [splitFirst, hd, hsp] at h
        obtain ⟨h1, h2⟩ := h
        have := ih p.1 (by rw [hsp, ← h2])
        rw [← h1]
        simp [this]

theorem splitFirst_none (c : Char) (s : List Char)
    (h : splitFirst c s = none) : c ∉ s := by
  induction s with
  | nil => simp
  | cons d ds ih =>
    by_cases hd : d = c
    · simp [splitFirst, hd] at h
    · simp [splitFirst, hd] at h
      have hne : ¬ c = d := fun hh => hd hh.symm
      simp [ih h, hne]

/-- Split at the last occurrence of `c`. -/
def splitLast (c : Char) (s : List Char) : Option (List Char × List Char) :=
  (splitFirst c s.reverse).map (fun p => (p.2.reverse, p.1.reverse))

/-- Longest prefix of characters not satisfying `p`, with the remainder. -/
def takeUntil (p : Char → Bool) : List Char → List Char × List Char
  | [] => ([], [])
  | c :: cs =>
    if p c then ([], c :: cs)
    else
      let r := takeUntil p cs
      (c :: r.1, r.2)

def joinChar (c : Char) (l : List (List Char)) : List Char :=
  List.intercalate [c] l

/-! ## Embedding of `urllib.parse` (CPython), for URLs free of the
control characters CPython strips before parsing. -/

/-- `urllib.parse.uses_relative`. -/
def usesRelative : List (List Char) :=
  ["", "ftp", "http", "gopher", "nntp", "imap", "wais", "file", "https",
   "shttp", "mms", "prospero", "rtsp", "rtspu", "sftp", "svn", "svn+ssh",
   "ws", "wss"].map String.data

/-- `urllib.parse.uses_netloc`. -/
def usesNetloc : List (List Char) :=
  ["", "ftp", "http", "gopher", "nntp", "telnet", "imap", "wais", "file",
   "mms", "https", "shttp", "snews", "prospero", "rtsp", "rtspu", "rsync",
   "svn", "svn+ssh", "sftp", "nfs", "git", "git+ssh", "ws", "wss",
   "itms-services"].map String.data

/-- `urllib.parse.uses_params`. -/
def usesParams : List (List Char) :=
  ["", "ftp", "hdl", "prospero", "http", "imap", "https", "shttp", "rtsp",
   "rtspu", "sip", "sips", "mms", "sftp", "tel"].map String.data

/-- Characters allowed after the first character of a scheme. -/
def isSchemeChar (c : Char) : Bool :=
  c.isAlpha ∨ c.isDigit ∨ c = '+' ∨ c = '-' ∨ c = '.'

structure UrlParts where
  scheme : List Char
  netloc : List Char
  path : List Char
  params : List Char
  query : List Char
  fragment : List Char
deriving DecidableEq, Repr

/-- `urllib.parse.urlsplit` (allow_fragments left at its default `True`):
returns scheme, netloc, path (params not yet split off), query, fragment. -/
def urlsplit (url : List Char) (defScheme : List Char) :
    List Char × List Char × List Char × List Char × List Char :=
  let schemeRest :=
    match splitFirst ':' url with
    | some (pre, post) =>
      match pre with
      | [] => (defScheme, url)
      | c0 :: cs =>
        if c0.isAlpha ∧ cs.all isSchemeChar then (lowerL pre, post)
        else (defScheme, url)
    | none => (defScheme, url)
  let scheme := schemeRest.1
  let rest0 := schemeRest.2
  let netlocRest :=
    if startsWithL ['/', '/'] rest0 then
      takeUntil (fun c => c = '/' ∨ c = '?' ∨ c = '#') (rest0.drop 2)
    else ([], rest0)
  let netloc := netlocRest.1
  let rest1 := netlocRest.2
  let restFrag :=
    match splitFirst '#' rest1 with
    | some (a, b) => (a, b)
    | none => (rest1, [])
  let rest2 := restFrag.1
  let fragment := restFrag.2
  let pathQuery :=
    match splitFirst '?' rest2 with
    | some (a, b) => (a, b)
    | none => (rest2, [])
  (scheme, netloc, pathQuery.1, pathQuery.2, fragment)

/-- `urllib.parse._splitparams`. -/
def splitparams (p : List Char) : List Char × List Char :=
  if p.contains '/' then
    match splitLast '/' p with
    | some (before, after) =>
      match splitFirst ';' after with
      | some (a, b) => (before ++ '/' :: a, b)
      | none => (p, [])
    | none => (p, [])
  else
    match splitFirst ';' p with
    | some (a, b) => (a, b)
    | none => (p, [])

/-- `urllib.parse.urlparse`. -/
def urlparse (url : List Char) (defScheme : List Char) : UrlParts :=
  let (scheme, netloc, p, query, fragment) := urlsplit url defScheme
  if usesParams.contains scheme ∧ p.contains ';' then
    let pp := splitparams p
    ⟨scheme, netloc, pp.1, pp.2, query, fragment⟩
  else
    ⟨scheme, netloc, p, [], query, fragment⟩

/-- `urllib.parse.urlunsplit`. -/
def urlunsplit (scheme netloc path query fragment : List Char) : List Char :=
  let url1 :=
    if netloc ≠ [] ∨ (path ≠ [] ∧ startsWithL ['/', '/'] path) then
      let p2 := if path ≠ [] ∧ ¬ startsWithL ['/'] path then '/' :: path else path
      '/' :: '/' :: (netloc ++ p2)
    else path
  let url2 := if scheme ≠ [] then scheme ++ ':' :: url1 else url1
  let url3 := if query ≠ [] then url2 ++ '?' :: query else url2
  if fragment ≠ [] then url3 ++ '#' :: fragment else url3

/-- `urllib.parse.urlunparse`. -/
def urlunparse (u : UrlParts) : List Char :=
  let p := if u.params ≠ [] then u.path ++ ';' :: u.params else u.path
  urlunsplit u.scheme u.netloc p u.query u.fragment

/-- `filter(None, segments[1:-1])`: drop empty segments, keeping the first
and last elements untouched. -/
def filterMidAux : List (List Char) → List (List Char)
  | [] => []
  | [y] => [y]
  | y :: rest => if y = [] then filterMidAux rest else y :: filterMidAux rest

def filterMiddle : List (List Char) → List (List Char)
  | [] => []
  | x :: rest => x :: filterMidAux rest

/-- The `for seg in segments` resolution loop of `urljoin` (`..` pops, `.` is
skipped, anything else is appended; popping an empty stack is a no-op). -/
def resolveSegs (acc : List (List Char)) : List (List Char) → List (List Char)
  | [] => acc
  | s :: rest =>
    if s = ['.', '.'] then resolveSegs acc.dropLast rest
    else if s = ['.'] then resolveSegs acc rest
    else resolveSegs (acc ++ [s]) rest

/-- `urllib.parse.urljoin` on character lists. -/
def urljoinL (base url : List Char) : List Char :=
  if base = [] then url
  else if url = [] then base
  else
    let b := urlparse base []
    let r := urlparse url b.scheme
    if r.scheme ≠ b.scheme ∨ usesRelative.contains r.scheme = false then url
    else if usesNetloc.contains r.scheme ∧ r.netloc ≠ [] then
      urlunparse ⟨r.scheme, r.netloc, r.path, r.params, r.query, r.fragment⟩
    else
      let netloc := if usesNetloc.contains r.scheme then b.netloc else r.netloc
      if r.path = [] ∧ r.params = [] then
        let query := if r.query = [] then b.query else r.query
        urlunparse ⟨r.scheme, netloc, b.path, b.params, query, r.fragment⟩
      else
        let baseParts0 := splitChar '/' b.path
        let baseParts :=
          if baseParts0.getLast? ≠ some [] then baseParts0.dropLast else baseParts0
        let segments :=
          if startsWithL ['/'] r.path then splitChar '/' r.path
          else filterMiddle (baseParts ++ splitChar '/' r.path)
        let resolved0 := resolveSegs [] segments
        let resolved :=
          if segments.getLast? = some ['.'] ∨ segments.getLast? = some ['.', '.']
          then resolved0 ++ [[]] else resolved0
        let joined := joinChar '/' resolved
        let path2 := if joined = [] then ['/'] else joined
        urlunparse ⟨r.scheme, netloc, path2, r.params, r.query, r.fragment⟩

/-- `urljoin` on strings. -/
def urljoin (base url : String) : String :=
  String.mk (urljoinL base.data url.data)

/-! ## Embedding of the specific `re` patterns used by `extractor.py`.

Each pattern is embedded as a scanner `tryXAt : List Char → Option (value ×
rest)` attempting a match at the head of the input (`value` is capture group 1
when the pattern has one, the whole matched text otherwise), and `re.findall`
semantics (leftmost, non-overlapping, scanning left to right) are provided by
`pyFindall`.  Word characters and case are treated in ASCII. -/

def isDigitC (c : Char) : Bool := '0' ≤ c ∧ c ≤ '9'

def isHexC (c : Char) : Bool :=
  isDigitC c ∨ ('a' ≤ c ∧ c ≤ 'f') ∨ ('A' ≤ c ∧ c ≤ 'F')

/-- `\w` for the `\b` boundary check. -/
def isWordC (c : Char) : Bool := c.isAlphanum ∨ c = '_'

def isQuote (c : Char) : Bool := c = '"' ∨ c = '\x27'

/-- Consume a literal, case-insensitively when `ci`, returning the rest. -/
def eatLit (ci : Bool) : List Char → List Char → Option (List Char)
  | [], s => some s
  | _ :: _, [] => none
  | l :: ls, c :: cs =>
    if (if ci then charLower c = charLower l else c = l) then eatLit ci ls cs
    else none

def eatChar (c : Char) : List Char → Option (List Char)
  | [] => none
  | d :: ds => if d = c then some ds else none

/-- A nonempty greedy run of characters satisfying `p`. -/
def eatRun (p : Char → Bool) (s : List Char) : Option (List Char × List Char) :=
  let r := s.takeWhile p
  if r = [] then none else some (r, s.dropWhile p)

/-- `re.findall`-style scan: attempt a match at each position, emit the value
and continue after the match, else advance one character.  All scanners below
consume at least one character on success, so `fuel = s.length` is exact. -/
def findAllWith {α : Type} (tm : List Char → Option (α × List Char)) :
    Nat → List Char → List α
  | 0, _ => []
  | _ + 1, [] => []
  | fuel + 1, c :: cs =>
    match tm (c :: cs) with
    | some (v, rest) => v :: findAllWith tm fuel rest
    | none => findAllWith tm fuel cs

def pyFindall {α : Type} (tm : List Char → Option (α × List Char))
    (s : List Char) : List α :=
  findAllWith tm s.length s

/-- `@import\s+["\']([^"\']+)["\']` (group). -/
def tryImportAt (s : List Char) : Option (List Char × List Char) :=
  match eatLit false "@import".data s with
  | none => none
  | some r1 =>
    let w := r1.takeWhile isPyWs
    let r2 := r1.dropWhile isPyWs
    if w = [] then none
    else
      match r2 with
      | [] => none
      | c :: cs =>
        if isQuote c then
          match eatRun (fun d => ¬ isQuote d) cs with
          | none => none
          | some (g, r3) =>
            match r3 with
            | d :: ds => if isQuote d then some (g, ds) else none
            | [] => none
        else none

/-- `[^\s,]`: a character a srcset token may contain. -/
def notTokenDelim (c : Char) : Bool := ¬ (isPyWs c ∨ c = ',')

/-- The token starting at offset `n` for `https?://[^\s,]+`: the scheme
prefix just matched plus the greedy run of non-delimiter characters. -/
def httpTokenAt (s : List Char) (n : Nat) : Option (List Char × List Char) :=
  let body := (s.drop n).takeWhile notTokenDelim
  if body = [] then none
  else some (s.take n ++ body, (s.drop n).drop body.length)

/-- `(https?://[^\s,]+)`. -/
def tryHttpAt (s : List Char) : Option (List Char × List Char) :=
  if startsWithL "https://".data s then httpTokenAt s 8
  else if startsWithL "http://".data s then httpTokenAt s 7
  else none

/-- `([^\s,]+)` (srcset tokens). -/
def tryTokenAt (s : List Char) : Option (List Char × List Char) :=
  eatRun notTokenDelim s

/-- `url\(["\']?([^"\')]+)["\']?\)` (group). -/
def tryUrlAt (s : List Char) : Option (List Char × List Char) :=
  match eatLit false "url(".data s with
  | none => none
  | some r1 =>
    let r2 :=
      match r1 with
      | c :: cs => if isQuote c then cs else r1
      | [] => r1
    let notExcl := fun (c : Char) => ¬ (isQuote c ∨ c = ')')
    match eatRun notExcl r2 with
    | none => none
    | some (g, r3) =>
      let r4 :=
        match r3 with
        | c :: cs => if isQuote c then cs else r3
        | [] => r3
      match r4 with
      | c :: cs => if c = ')' then some (g, cs) else none
      | [] => none

/-- `\b`: the previous character was a word character, so the match boundary
holds iff the next character is absent or not a word character. -/
def boundaryOk : List Char → Bool
  | [] => true
  | c :: _ => ¬ isWordC c

/-- `#([A-Fa-f0-9]{6}|[A-Fa-f0-9]{3})\b` (group). -/
def tryHexAt (s : List Char) : Option (List Char × List Char) :=
  match s with
  | c :: cs =>
    if c = '#' then
      let six := cs.take 6
      if six.length = 6 ∧ six.all isHexC ∧ boundaryOk (cs.drop 6) then
        some (six, cs.drop 6)
      else
        let three := cs.take 3
        if three.length = 3 ∧ three.all isHexC ∧ boundaryOk (cs.drop 3) then
          some (three, cs.drop 3)
        else none
    else none
  | [] => none

/-- Shared tail `\(\s*\d+\s*` then `sep`-terminated components for the color
function patterns: consume `\s*\d+\s*` then the literal `sep`. -/
def eatNumComp (sep : Char) (trailPercent : Bool) (s : List Char) :
    Option (List Char) :=
  let r1 := s.dropWhile isPyWs
  match eatRun isDigitC r1 with
  | none => none
  | some (_, r2) =>
    let r3 := if trailPercent then eatChar '%' r2 else some r2
    match r3 with
    | none => none
    | some r4 => eatChar sep (r4.dropWhile isPyWs)

/-- The remainder consumed by `rgb\s*\(\s*\d+\s*,\s*\d+\s*,\s*\d+\s*\)`
(IGNORECASE) when it matches at the head. -/
def rgbTail (s : List Char) : Option (List Char) :=
  match eatLit true "rgb".data s with
  | none => none
  | some r1 =>
    match eatChar '(' (r1.dropWhile isPyWs) with
    | none => none
    | some r2 =>
      match eatNumComp ',' false r2 with
      | none => none
      | some r3 =>
        match eatNumComp ',' false r3 with
        | none => none
        | some r4 => eatNumComp ')' false r4

/-- `rgb\s*\(\s*\d+\s*,\s*\d+\s*,\s*\d+\s*\)` (whole match), IGNORECASE. -/
def tryRgbAt (s : List Char) : Option (List Char × List Char) :=
  (rgbTail s).map (fun rest => (s.take (s.length - rest.length), rest))

/-- The remainder consumed by
`rgba\s*\(\s*\d+\s*,\s*\d+\s*,\s*\d+\s*,\s*[\d.]+\s*\)` (IGNORECASE). -/
def rgbaTail (s : List Char) : Option (List Char) :=
  match eatLit true "rgba".data s with
  | none => none
  | some r1 =>
    match eatChar '(' (r1.dropWhile isPyWs) with
    | none => none
    | some r2 =>
      match eatNumComp ',' false r2 with
      | none => none
      | some r3 =>
        match eatNumComp ',' false r3 with
        | none => none
        | some r4 =>
          match eatNumComp ',' false r4 with
          | none => none
          | some r5 =>
            match eatRun (fun c => isDigitC c ∨ c = '.') (r5.dropWhile isPyWs) with
            | none => none
            | some (_, r6) => eatChar ')' (r6.dropWhile isPyWs)

/-- `rgba\s*\(\s*\d+\s*,\s*\d+\s*,\s*\d+\s*,\s*[\d.]+\s*\)` (whole match),
IGNORECASE. -/
def tryRgbaAt (s : List Char) : Option (List Char × List Char) :=
  (rgbaTail s).map (fun rest => (s.take (s.length - rest.length), rest))

/-- The remainder consumed by `hsl\s*\(\s*\d+\s*,\s*\d+%\s*,\s*\d+%\s*\)`
(IGNORECASE). -/
def hslTail (s : List Char) : Option (List Char) :=
  match eatLit true "hsl".data s with
  | none => none
  | some r1 =>
    match eatChar '(' (r1.dropWhile isPyWs) with
    | none => none
    | some r2 =>
      match eatNumComp ',' false r2 with
      | none => none
      | some r3 =>
        match eatNumComp ',' true r3 with
        | none => none
        | some r4 => eatNumComp ')' true r4

/-- `hsl\s*\(\s*\d+\s*,\s*\d+%\s*,\s*\d+%\s*\)` (whole match), IGNORECASE. -/
def tryHslAt (s : List Char) : Option (List Char × List Char) :=
  (hslTail s).map (fun rest => (s.take (s.length - rest.length), rest))

/-- `font-family\s*:\s*([^X]+)` (group), IGNORECASE, where the excluded set
`X` is `;` for inline styles and `;}` for style blocks.  When the greedy `\s*`
leaves the group facing an excluded character, the regex engine backtracks one
whitespace character into the group. -/
def tryFontFamilyAt (excl : Char → Bool) (s : List Char) :
    Option (List Char × List Char) :=
  match eatLit true "font-family".data s with
  | none => none
  | some r1 =>
    match eatChar ':' (r1.dropWhile isPyWs) with
    | none => none
    | some r3 =>
      let w := r3.takeWhile isPyWs
      let r4 := r3.dropWhile isPyWs
      match eatRun (fun c => ¬ excl c) r4 with
      | some (g, r5) => some (g, r5)
      | none =>
        match w.getLast? with
        | some wc => some ([wc], r4)
        | none => none

def inlineFontExcl (c : Char) : Bool := c = ';'

def blockFontExcl (c : Char) : Bool := c = ';' ∨ c = '\x7d'

/-- The tail `font-family\s*:\s*["\']?([^"\';}]+)` of the `@font-face`
pattern (group). -/
def tryFFDeclAt (s : List Char) : Option (List Char × List Char) :=
  match eatLit true "font-family".data s with
  | none => none
  | some r1 =>
    match eatChar ':' (r1.dropWhile isPyWs) with
    | none => none
    | some r3 =>
      let w := r3.takeWhile isPyWs
      let r4 := r3.dropWhile isPyWs
      let r5 :=
        match r4 with
        | c :: cs => if isQuote c then cs else r4
        | [] => r4
      let ffExcl := fun (c : Char) => isQuote c ∨ c = ';' ∨ c = '\x7d'
      match eatRun (fun c => ¬ ffExcl c) r5 with
      | some (g, r6) => some (g, r6)
      | none =>
        match w.getLast? with
        | some wc => some ([wc], r4)
        | none => none

/-- Greedy `[^}]*`: try the declaration tail at each position of the brace
body, rightmost first. -/
def ffSearchDesc (r : List Char) : Nat → Option (List Char × List Char)
  | 0 => tryFFDeclAt r
  | i + 1 =>
    match tryFFDeclAt (r.drop (i + 1)) with
    | some res => some res
    | none => ffSearchDesc r i

/-- `@font-face\s*\{[^}]*font-family\s*:\s*["\']?([^"\';}]+)` (group),
IGNORECASE | DOTALL. -/
def tryFontFaceAt (s : List Char) : Option (List Char × List Char) :=
  match eatLit true "@font-face".data s with
  | none => none
  | some r1 =>
    match eatChar '\x7b' (r1.dropWhile isPyWs) with
    | none => none
    | some r3 =>
      let body := r3.takeWhile (fun c => c ≠ '\x7d')
      ffSearchDesc r3 body.length

/-- `re.match(r'^[A-Fa-f0-9]{3,6}$', s)` succeeds. -/
def matchesHex36 (s : List Char) : Bool :=
  decide (3 ≤ s.length) && decide (s.length ≤ 6) && s.all isHexC

/-! ## The parsed document (BeautifulSoup model)

An element has a tag name, attributes, the text `el.string or ''`, and child
elements.  `find_all` returns every matching element of the subtree in
document order. -/

inductive HNode where
  | elem (tag : String) (attrs : List (String × String)) (text : String)
      (children : List HNode)
deriving Repr

def tagOf : HNode → String
  | .elem t _ _ _ => t

def attrsOf : HNode → List (String × String)
  | .elem _ a _ _ => a

def textOf : HNode → String
  | .elem _ _ s _ => s

def childrenOf : HNode → List HNode
  | .elem _ _ _ cs => cs

/-- `el.get(name)`. -/
def getAttr (name : String) (n : HNode) : Option String :=
  (attrsOf n).lookup name

/-- `el.get(name, '')`. -/
def getAttrD (name : String) (n : HNode) : String :=
  (getAttr name n).getD ""

def hasAttr (name : String) (n : HNode) : Bool :=
  (getAttr name n).isSome

mutual

def findAllN (p : HNode → Bool) : HNode → List HNode
  | .elem t a s cs =>
    (if p (.elem t a s cs) then [HNode.elem t a s cs] else []) ++ findAllL p cs

def findAllL (p : HNode → Bool) : List HNode → List HNode
  | [] => []
  | c :: cs => findAllN p c ++ findAllL p cs

end

/-- `rel` is a multi-valued attribute in BeautifulSoup: `rel='stylesheet'`
matches when `stylesheet` is one of its whitespace-separated values. -/
def relStylesheet (n : HNode) : Bool :=
  match getAttr "rel" n with
  | some v => (splitPyWs v.data).contains "stylesheet".data
  | none => false

def isLinkStylesheet (n : HNode) : Bool :=
  tagOf n = "link" ∧ relStylesheet n

def isStyleTag (n : HNode) : Bool := tagOf n = "style"

/-! ## `WebsiteExtractor` (extractor.py) -/

structure WebsiteExtractor where
  url : String
  timeout : Nat := 30
  /-- `self.soup`: `none` until `fetch_html` has succeeded. -/
  soup : Option (List HNode)

def image_extensions : List String :=
  [".jpg", ".jpeg", ".png", ".gif", ".svg", ".webp", ".ico", ".bmp"]

def other_extensions : List String :=
  [".pdf", ".doc", ".docx", ".xls", ".xlsx", ".zip",
   ".woff", ".woff2", ".ttf", ".eot", ".otf",
   ".mp4", ".webm", ".mp3", ".wav", ".ogg"]

def font_extensions : List String :=
  [".woff", ".woff2", ".ttf", ".eot", ".otf"]

/-- `any(s.lower().endswith(ext) for ext in exts)`. -/
def endsWithAnyLower (exts : List String) (s : String) : Bool :=
  exts.any (fun ext => endsWithL ext.data (lowerL s.data))

/-- `WebsiteExtractor.extract_css_files`. -/
def extract_css_files (e : WebsiteExtractor) : List String :=
  match e.soup with
  | none => []
  | some roots =>
    let linkUrls := (findAllL isLinkStylesheet roots).filterMap (fun l =>
      match getAttr "href" l with
      | some href => if href ≠ "" then some (urljoin e.url href) else none
      | none => none)
    let importUrls := (findAllL isStyleTag roots).flatMap (fun st =>
      (pyFindall tryImportAt (textOf st).data).map
        (fun imp => urljoin e.url (String.mk imp)))
    (linkUrls ++ importUrls).dedup

/-- `WebsiteExtractor.extract_js_files`. -/
def extract_js_files (e : WebsiteExtractor) : List String :=
  match e.soup with
  | none => []
  | some roots =>
    let jsUrls := (findAllL (fun n => tagOf n = "script" ∧ hasAttr "src" n) roots).filterMap
      (fun sc =>
        match getAttr "src" sc with
        | some src => if src ≠ "" then some (urljoin e.url src) else none
        | none => none)
    jsUrls.dedup

/-- `url.split()[0]` on a srcset token (tokens are nonempty and free of
whitespace, so this is the token itself). -/
def pySplitHead (s : List Char) : List Char :=
  (splitPyWs s).headD []

/-- The `<img src>` loop of `extract_images`. -/
def imgSrcUrls (pageUrl : String) (roots : List HNode) : List String :=
  (findAllL (fun n => tagOf n = "img" ∧ hasAttr "src" n) roots).filterMap
    (fun img =>
      match getAttr "src" img with
      | some src => if src ≠ "" then some (urljoin pageUrl src) else none
      | none => none)

/-- The `<img srcset>` loop of `extract_images`: absolute-looking tokens,
taken verbatim. -/
def imgSrcsetUrls (roots : List HNode) : List String :=
  (findAllL (fun n => tagOf n = "img" ∧ hasAttr "srcset" n) roots).flatMap
    (fun img => (pyFindall tryHttpAt (getAttrD "srcset" img).data).map String.mk)

/-- The contribution of one `<source srcset>` element in `extract_images`:
each token is resolved against the page URL and kept when the resolved URL
ends in a known image extension. -/
def sourceSrcsetOf (pageUrl : String) (n : HNode) : List String :=
  (pyFindall tryTokenAt (getAttrD "srcset" n).data).filterMap (fun tok =>
    let abs := urljoin pageUrl (String.mk (pySplitHead tok))
    if endsWithAnyLower image_extensions abs then some abs else none)

/-- The `<source srcset>` loop of `extract_images`. -/
def sourceSrcsetUrls (pageUrl : String) (roots : List HNode) : List String :=
  (findAllL (fun n => tagOf n = "source" ∧ hasAttr "srcset" n) roots).flatMap
    (sourceSrcsetOf pageUrl)

/-- The inline-style `url(...)` loop of `extract_images`. -/
def bgImageUrls (pageUrl : String) (roots : List HNode) : List String :=
  (findAllL (hasAttr "style") roots).flatMap (fun el =>
    (pyFindall tryUrlAt (getAttrD "style" el).data).filterMap (fun bg =>
      let abs := urljoin pageUrl (String.mk bg)
      if endsWithAnyLower image_extensions abs then some abs else none))

/-- `WebsiteExtractor.extract_images`. -/
def extract_images (e : WebsiteExtractor) : List String :=
  match e.soup with
  | none => []
  | some roots =>
    (imgSrcUrls e.url roots ++ imgSrcsetUrls roots ++
      sourceSrcsetUrls e.url roots ++ bgImageUrls e.url roots).dedup

/-- `WebsiteExtractor.extract_other_files`. -/
def extract_other_files (e : WebsiteExtractor) : List String :=
  match e.soup with
  | none => []
  | some roots =>
    let anchorUrls := (findAllL (fun n => tagOf n = "a" ∧ hasAttr "href" n) roots).filterMap
      (fun l =>
        match getAttr "href" l with
        | some href =>
          if href ≠ "" ∧ endsWithAnyLower other_extensions href then
            some (urljoin e.url href)
          else none
        | none => none)
    let fontLinkUrls := (findAllL (fun n => tagOf n = "link" ∧ hasAttr "href" n) roots).filterMap
      (fun l =>
        match getAttr "href" l with
        | some href =>
          if href ≠ "" ∧ endsWithAnyLower font_extensions href then
            some (urljoin e.url href)
          else none
        | none => none)
    let mediaUrls := fun (tags : List String) =>
      (findAllL (fun n => tags.contains (tagOf n) ∧ hasAttr "src" n) roots).filterMap
        (fun v =>
          match getAttr "src" v with
          | some src => if src ≠ "" then some (urljoin e.url src) else none
          | none => none)
    (anchorUrls ++ fontLinkUrls ++ mediaUrls ["video", "source"] ++
      mediaUrls ["audio", "source"]).dedup

/-- Code-point lexicographic comparison, as Python compares strings (shown
below to agree with `≤` on `String`). -/
def lexLe : List Char → List Char → Bool
  | [], _ => true
  | _ :: _, [] => false
  | a :: as, b :: bs => if a < b then true else if b < a then false else lexLe as bs

/-- Insertion sort on strings; `sorted` in Python. -/
def insertSorted (a : String) : List String → List String
  | [] => [a]
  | b :: l => if lexLe a.data b.data then a :: b :: l else b :: insertSorted a l

def pySort (l : List String) : List String := l.foldr insertSorted []

/-- The four color-pattern scans of one inline `style` attribute value
(capture groups for hex, whole matches otherwise). -/
def inlineColorFinds (st : List Char) : List (List Char) :=
  pyFindall tryHexAt st ++ pyFindall tryRgbAt st ++
    pyFindall tryRgbaAt st ++ pyFindall tryHslAt st

/-- The four color-pattern scans of one `<style>` block (hex groups get a
`#` prefix here). -/
def blockColorFinds (st : List Char) : List (List Char) :=
  (pyFindall tryHexAt st).map (fun c => '#' :: c) ++ pyFindall tryRgbAt st ++
    pyFindall tryRgbaAt st ++ pyFindall tryHslAt st

/-- The final clean-up step of `extract_colors`. -/
def cleanColor (c : List Char) : List Char :=
  if startsWithL ['#'] c then c
  else if matchesHex36 c then '#' :: c
  else c

/-- Everything the four color patterns match across the document: the
inline scans over inline `style` values followed by the block scans over
`<style>` texts (this is the Python `colors` set before clean-up). -/
def colorFindsAll (roots : List HNode) : List (List Char) :=
  ((findAllL (hasAttr "style") roots).map (getAttrD "style")).flatMap
      (fun st => inlineColorFinds st.data) ++
    ((findAllL isStyleTag roots).map textOf).flatMap
      (fun st => blockColorFinds st.data)

/-- `WebsiteExtractor.extract_colors`. -/
def extract_colors (e : WebsiteExtractor) : List String :=
  match e.soup with
  | none => []
  | some roots =>
    pySort (((((colorFindsAll roots).dedup).map cleanColor).dedup).map String.mk)

/-- One comma-separated, cleaned font-family declaration value: split on
commas, strip whitespace then surrounding quotes, drop empties. -/
def cleanFontTokens (family : List Char) : List (List Char) :=
  (splitChar ',' family).filterMap (fun tok =>
    let cleaned := stripQuotes (stripWs tok)
    if cleaned ≠ [] then some cleaned else none)

/-- The raw `font-family` declaration values found in a document (inline
pattern over inline styles, block pattern over style texts). -/
def fontFamilyDecls (roots : List HNode) : List (List Char) :=
  ((findAllL (hasAttr "style") roots).map (getAttrD "style")).flatMap
      (fun st => pyFindall (tryFontFamilyAt inlineFontExcl) st.data) ++
    ((findAllL isStyleTag roots).map textOf).flatMap
      (fun st => pyFindall (tryFontFamilyAt blockFontExcl) st.data)

/-- The raw `@font-face` family-name captures found in a document. -/
def fontFaceNames (roots : List HNode) : List (List Char) :=
  ((findAllL isStyleTag roots).map textOf).flatMap
    (fun st => pyFindall tryFontFaceAt st.data)

/-- All cleaned comma-separated tokens of all `font-family` declarations of
the document. -/
def fontTokensAll (roots : List HNode) : List (List Char) :=
  (fontFamilyDecls roots).flatMap cleanFontTokens

/-- The `@font-face` names, whitespace-stripped, empties discarded. -/
def fontFaceCleaned (roots : List HNode) : List (List Char) :=
  (fontFaceNames roots).filterMap (fun f =>
    let cleaned := stripWs f
    if cleaned ≠ [] then some cleaned else none)

/-- `WebsiteExtractor.extract_fonts`. -/
def extract_fonts (e : WebsiteExtractor) : List String :=
  match e.soup with
  | none => []
  | some roots =>
    pySort (((fontTokensAll roots ++ fontFaceCleaned roots).map String.mk).dedup)

/-! ## `build_file_structure` -/

/-- A value of the nested dictionary: a URL string (file) or a sub-dictionary
(directory).  The dictionary itself is an insertion-ordered association list
with unique keys, as a Python `dict`. -/
inductive FSNode where
  | leaf (url : String)
  | dir (entries : List (String × FSNode))
deriving Repr

abbrev FSTree := List (String × FSNode)

def lookupKey (k : String) : FSTree → Option FSNode
  | [] => none
  | (k', v) :: t => if k' = k then some v else lookupKey k t

/-- `d[k] = v` on a Python dict: overwrite in place, else append. -/
def setKey (t : FSTree) (k : String) (v : FSNode) : FSTree :=
  match t with
  | [] => [(k, v)]
  | (k', v') :: rest =>
    if k' = k then (k, v) :: rest else (k', v') :: setKey rest k v

/-- The `for i, part in enumerate(parts)` loop of `build_file_structure`,
acting on the current dictionary.  On the last part the key is set to the
URL.  On an intermediate part: a missing key gets a fresh sub-dictionary and
the walk descends; an existing sub-dictionary is descended into; an existing
leaf is left in place and the walk stays at the same dictionary. -/
def insertParts (t : FSTree) (parts : List String) (url : String) : FSTree :=
  match parts with
  | [] => t
  | [p] => setKey t p (.leaf url)
  | p :: q :: rest =>
    match lookupKey p t with
    | none => setKey t p (.dir (insertParts [] (q :: rest) url))
    | some (.dir d) => setKey t p (.dir (insertParts d (q :: rest) url))
    | some (.leaf _) => insertParts t (q :: rest) url

/-- One iteration of the `for url in file_urls` loop: parse the URL, strip
`/` from both ends of the path, skip the URL when the result is empty, else
insert its segments.  (The `except: continue` of the source is vacuous here:
the embedded parser is total.) -/
def buildStep (st : FSTree) (url : String) : FSTree :=
  let path := stripIf (fun c => c = '/') (urlparse url.data []).path
  if path = [] then st
  else insertParts st ((splitChar '/' path).map String.mk) url

/-- `WebsiteExtractor.build_file_structure`. -/
def build_file_structure (file_urls : List String) : FSTree :=
  file_urls.foldl buildStep []

mutual

/-- The URL strings sitting at the leaves of a node. -/
def leafValuesN : FSNode → List String
  | .leaf u => [u]
  | .dir t => leafValuesT t

def leafValuesT : FSTree → List String
  | [] => []
  | (_, v) :: t => leafValuesN v ++ leafValuesT t

end

/-! ## `download_all_files` (main.py)

The network fetch and the zip writer are external collaborators: a fetch is
`String → Option String` (`none` models `download_file` raising), and the
archive is the list of `(entry name, content)` pairs passed to
`zip_file.writestr`, in order.  A failed fetch hits the `except` branch,
which only prints, so the file is skipped. -/

/-- `url.split('/')[-1].split('?')[0] or default`. -/
def zipFilename (url : String) (dflt : String) : String :=
  let lastSeg := (splitChar '/' url.data).getLastD []
  let name := (splitChar '?' lastSeg).headD []
  if name = [] then dflt else String.mk name

/-- One per-category loop: iterate the first `cap` URLs, skip failures. -/
def addCategoryEntries (fetch : String → Option String) (cap : Nat)
    (dirName dflt : String) (urls : List String) : List (String × String) :=
  (urls.take cap).filterMap (fun u =>
    (fetch u).map (fun content => (dirName ++ "/" ++ zipFilename u dflt, content)))

/-- The archive built by `download_all_files`, given the page HTML and the
four extracted URL lists. -/
def download_all_files (fetch : String → Option String) (html_source : String)
    (css_files js_files images others : List String) : List (String × String) :=
  ("index.html", html_source)
    :: (addCategoryEntries fetch 20 "css" "style.css" css_files
      ++ addCategoryEntries fetch 20 "js" "script.js" js_files
      ++ addCategoryEntries fetch 30 "images" "image.jpg" images
      ++ addCategoryEntries fetch 10 "others" "file" others)

/-- The URLs on which a fetch is attempted by one category loop. -/
def attemptedUrls (cap : Nat) (urls : List String) : List String :=
  urls.take cap

/-! ## Auxiliary notions used by the claim statements -/

/-- The style texts `extract_colors` and `extract_fonts` scan: all inline
`style` attribute values followed by all `<style>` block texts. -/
def styleSources (roots : List HNode) : List String :=
  (findAllL (hasAttr "style") roots).map (getAttrD "style") ++
    (findAllL isStyleTag roots).map textOf

/-- The style sources of an extractor state (empty before a fetch). -/
def extractorStyleSources (e : WebsiteExtractor) : List String :=
  match e.soup with
  | none => []
  | some roots => styleSources roots

/-- The strict descendants of a node. -/
def descendants (n : HNode) : List HNode :=
  findAllL (fun _ => true) (childrenOf n)

/-- Running one extraction method on the extractor: the Python methods only
read `self.soup` and never assign to `self`, so the state is returned
unchanged next to the result. -/
def runExtraction (op : WebsiteExtractor → List String)
    (e : WebsiteExtractor) : List String × WebsiteExtractor :=
  (op e, e)

/-! ## Concrete instances used by witnesses and counterexamples -/

/-- A document whose single element is
`<link rel="stylesheet" href="f.woff">`. -/
def linkWoffDoc : List HNode :=
  [.elem "link" [("rel", "stylesheet"), ("href", "f.woff")] "" []]

def linkWoffExtractor : WebsiteExtractor :=
  { url := "https://x.com/", soup := some linkWoffDoc }

/-- `<source srcset="img/a.png 1x, img/c.txt 2x">` inside a picture. -/
def srcsetSource : HNode :=
  .elem "source" [("srcset", "img/a.png 1x, img/c.txt 2x")] "" []

def srcsetPicture : HNode := .elem "picture" [] "" [srcsetSource]

/-- `<img srcset="img/a.png 1x, https://c.dn/b.png 2x">` next to a
`<picture>` containing `<source srcset="img/a.png 1x, img/c.txt 2x">`. -/
def srcsetDoc : List HNode :=
  [.elem "img" [("srcset", "img/a.png 1x, https://c.dn/b.png 2x")] "" [],
   srcsetPicture]

def srcsetExtractor : WebsiteExtractor :=
  { url := "https://x.com/", soup := some srcsetDoc }

/-- `<div style="color:#FFF;background:#112233">` and
`<style>.a{color:rgb(1, 2, 3)}</style>`. -/
def colorsDoc : List HNode :=
  [.elem "div" [("style", "color:#FFF;background:#112233")] "" [],
   .elem "style" [] ".a\x7bcolor:rgb(1, 2, 3)\x7d" []]

def colorsExtractor : WebsiteExtractor :=
  { url := "https://x.com/", soup := some colorsDoc }

/-- `<p style="font-family: 'Open Sans', Arial">`. -/
def fontsDoc : List HNode :=
  [.elem "p" [("style", "font-family: \x27Open Sans\x27, Arial")] "" []]

def fontsExtractor : WebsiteExtractor :=
  { url := "https://x.com/", soup := some fontsDoc }

/-- A `@font-face` block whose `font-family` is not the first declaration. -/
def fontFaceDoc : List HNode :=
  [.elem "style" [] "@font-face \x7b src: url(f.woff); font-family: MyFont; \x7d" []]

def fontFaceExtractor : WebsiteExtractor :=
  { url := "https://x.com/", soup := some fontFaceDoc }

/-- 25 CSS URLs for the bulk-archive scenario. -/
def bulkCssUrls : List String :=
  ["https://x.com/css/a0.css", "https://x.com/css/a1.css",
   "https://x.com/css/a2.css", "https://x.com/css/a3.css",
   "https://x.com/css/a4.css", "https://x.com/css/a5.css",
   "https://x.com/css/a6.css", "https://x.com/css/a7.css",
   "https://x.com/css/a8.css", "https://x.com/css/a9.css",
   "https://x.com/css/a10.css", "https://x.com/css/a11.css",
   "https://x.com/css/a12.css", "https://x.com/css/a13.css",
   "https://x.com/css/a14.css", "https://x.com/css/a15.css",
   "https://x.com/css/a16.css", "https://x.com/css/a17.css",
   "https://x.com/css/a18.css", "https://x.com/css/a19.css",
   "https://x.com/css/a20.css", "https://x.com/css/a21.css",
   "https://x.com/css/a22.css", "https://x.com/css/a23.css",
   "https://x.com/css/a24.css"]

/-- A fetch that fails on 3 of the first 20 of `bulkCssUrls` and succeeds
elsewhere. -/
def bulkFetch (u : String) : Option String :=
  if u = "https://x.com/css/a2.css" ∨ u = "https://x.com/css/a5.css" ∨
      u = "https://x.com/css/a7.css" then none
  else some "body"

/-! ## Lemmas: `lexLe` agrees with the order on `String`, and `pySort`
sorts -/

theorem lexLe_iff : ∀ (l1 l2 : List Char),
    lexLe l1 l2 = true ↔ ¬ List.Lex (· < ·) l2 l1
  | [], l2 => iff_of_true rfl (fun h => nomatch h)
  | a :: as, [] => iff_of_false (by simp [lexLe]) (not_not_intro List.Lex.nil)
  | a :: as, b :: bs => by
    rcases lt_trichotomy a b with h | h | h
    · refine iff_of_true (by simp [lexLe, h]) (fun hl => ?_)
      cases hl with
      | cons hl' => exact absurd h (lt_irrefl a)
      | rel hr => exact absurd h (lt_asymm hr)
    · subst h
      show (if a < a then true else if a < a then false else lexLe as bs) = true ↔ _
      rw [if_neg (lt_irrefl a), if_neg (lt_irrefl a), lexLe_iff as bs]
      constructor
      · intro hn hl
        cases hl with
        | cons hl' => exact hn hl'
        | rel hr => exact absurd hr (lt_irrefl a)
      · intro hn hl
        exact hn (List.Lex.cons hl)
    · have hab : ¬ a < b := lt_asymm h
      exact iff_of_false (by simp [lexLe, hab, h])
        (not_not_intro (List.Lex.rel h))

/-- Python string comparison (code-point lexicographic) is `≤` on
`String`. -/
theorem lexLe_eq_le (a b : String) : lexLe a.data b.data = true ↔ a ≤ b := by
  rw [String.le_iff_toList_le, ← not_lt]
  exact lexLe_iff a.data b.data

theorem mem_insertSorted (a b : String) (l : List String) :
    b ∈ insertSorted a l ↔ b = a ∨ b ∈ l := by
  induction l with
  | nil => simp [insertSorted]
  | cons c l ih =>
    simp only [insertSorted]
    by_cases h : lexLe a.data c.data = true
    · simp [h]
    · rw [if_neg h]
      simp only [List.mem_cons, ih]
      tauto

theorem insertSorted_perm (a : String) (l : List String) :
    (insertSorted a l).Perm (a :: l) := by
  induction l with
  | nil => exact List.Perm.refl _
  | cons c l ih =>
    simp only [insertSorted]
    by_cases h : lexLe a.data c.data = true
    · simp [h]
    · rw [if_neg h]
      exact (ih.cons c).trans (List.Perm.swap a c l)

theorem pySort_perm (l : List String) : (pySort l).Perm l := by
  induction l with
  | nil => exact List.Perm.refl _
  | cons a l ih =>
    simp only [pySort, List.foldr_cons]
    exact (insertSorted_perm a _).trans (ih.cons a)

theorem mem_pySort (a : String) (l : List String) : a ∈ pySort l ↔ a ∈ l :=
  (pySort_perm l).mem_iff

theorem insertSorted_sorted (a : String) (l : List String)
    (hs : l.Sorted (· ≤ ·)) : (insertSorted a l).Sorted (· ≤ ·) := by
  induction l with
  | nil => simp [insertSorted]
  | cons b l ih =>
    rw [List.sorted_cons] at hs
    simp only [insertSorted]
    by_cases hab : lexLe a.data b.data = true
    · rw [if_pos hab, List.sorted_cons]
      constructor
      · intro y hy
        rcases List.mem_cons.mp hy with rfl | hy
        · exact (lexLe_eq_le a y).mp hab
        · exact le_trans ((lexLe_eq_le a b).mp hab) (hs.1 y hy)
      · exact List.sorted_cons.mpr hs
    · rw [if_neg hab, List.sorted_cons]
      constructor
      · intro y hy
        rcases (mem_insertSorted a y l).mp hy with hh | hy
        · rw [hh]
          exact le_of_not_le (fun hle => hab ((lexLe_eq_le a b).mpr hle))
        · exact hs.1 y hy
      · exact ih hs.2

theorem pySort_sorted (l : List String) : (pySort l).Sorted (· ≤ ·) := by
  induction l with
  | nil => exact List.sorted_nil
  | cons a l ih =>
    simp only [pySort, List.foldr_cons]
    exact insertSorted_sorted a _ ih

theorem pySort_nodup {l : List String} (h : l.Nodup) : (pySort l).Nodup :=
  (pySort_perm l).nodup_iff.mpr h

/-! ## Lemmas: the file-structure tree -/

theorem lookupKey_setKey_self (k : String) (v : FSNode) :
    ∀ (t : FSTree), lookupKey k (setKey t k v) = some v
  | [] => by simp [setKey, lookupKey]
  | (k', v') :: t => by
    by_cases h : k' = k
    · simp [setKey, h, lookupKey]
    · simp [setKey, h, lookupKey, lookupKey_setKey_self k v t]

theorem mem_leafValuesT_setKey (k : String) (v : FSNode) (x : String) :
    ∀ (t : FSTree), x ∈ leafValuesT (setKey t k v) →
      x ∈ leafValuesT t ∨ x ∈ leafValuesN v
  | [] => fun h => by
    simp only [setKey, leafValuesT, List.append_nil] at h
    exact Or.inr h
  | (k', v') :: t => fun h => by
    by_cases hk : k' = k
    · simp only [setKey, hk, if_pos, if_true, leafValuesT, List.mem_append] at h ⊢
      tauto
    · simp only [setKey, hk, if_false, leafValuesT, List.mem_append] at h ⊢
      rcases h with h | h
      · exact Or.inl (Or.inl h)
      · rcases mem_leafValuesT_setKey k v x t h with h1 | h1
        · exact Or.inl (Or.inr h1)
        · exact Or.inr h1

theorem lookup_leafValues (k : String) (v : FSNode) (x : String) :
    ∀ (t : FSTree), lookupKey k t = some v → x ∈ leafValuesN v →
      x ∈ leafValuesT t
  | [] => fun h => by simp [lookupKey] at h
  | (k', v') :: t => fun h hx => by
    by_cases hk : k' = k
    · simp only [lookupKey, hk, if_pos, if_true, Option.some.injEq] at h
      subst h
      exact List.mem_append.mpr (Or.inl hx)
    · simp only [lookupKey, hk, if_false] at h
      exact List.mem_append.mpr (Or.inr (lookup_leafValues k v x t h hx))

theorem mem_leafValuesT_insertParts :
    ∀ (parts : List String) (t : FSTree) (url x : String),
      x ∈ leafValuesT (insertParts t parts url) → x ∈ leafValuesT t ∨ x = url
  | [], _, _, _ => fun h => Or.inl h
  | [p], t, url, x => fun h => by
    simp only [insertParts] at h
    rcases mem_leafValuesT_setKey p (.leaf url) x t h with h1 | h1
    · exact Or.inl h1
    · simp only [leafValuesN, List.mem_singleton] at h1
      exact Or.inr h1
  | p :: q :: rest, t, url, x => fun h => by
    simp only [insertParts] at h
    cases hl : lookupKey p t with
    | none =>
      rw [hl] at h
      rcases mem_leafValuesT_setKey p _ x t h with h1 | h1
      · exact Or.inl h1
      · simp only [leafValuesN] at h1
        rcases mem_leafValuesT_insertParts (q :: rest) [] url x h1 with h2 | h2
        · simp [leafValuesT] at h2
        · exact Or.inr h2
    | some node =>
      cases node with
      | leaf u =>
        rw [hl] at h
        exact mem_leafValuesT_insertParts (q :: rest) t url x h
      | dir d =>
        rw [hl] at h
        rcases mem_leafValuesT_setKey p _ x t h with h1 | h1
        · exact Or.inl h1
        · simp only [leafValuesN] at h1
          rcases mem_leafValuesT_insertParts (q :: rest) d url x h1 with h2 | h2
          · exact Or.inl (lookup_leafValues p (.dir d) x t hl h2)
          · exact Or.inr h2

theorem mem_leafValuesT_buildStep (st : FSTree) (url x : String)
    (h : x ∈ leafValuesT (buildStep st url)) : x ∈ leafValuesT st ∨ x = url := by
  unfold buildStep at h
  by_cases hp : stripIf (fun c => c = '/') (urlparse url.data []).path = []
  · rw [if_pos hp] at h
    exact Or.inl h
  · rw [if_neg hp] at h
    exact mem_leafValuesT_insertParts _ st url x h

theorem mem_leafValuesT_foldl :
    ∀ (urls : List String) (init : FSTree) (x : String),
      x ∈ leafValuesT (urls.foldl buildStep init) → x ∈ leafValuesT init ∨ x ∈ urls
  | [], _, _ => fun h => Or.inl h
  | u :: urls, init, x => fun h => by
    rcases mem_leafValuesT_foldl urls (buildStep init u) x h with h1 | h1
    · rcases mem_leafValuesT_buildStep init u x h1 with h2 | h2
      · exact Or.inl h2
      · exact Or.inr (by simp [h2])
    · exact Or.inr (List.mem_cons_of_mem u h1)

theorem buildStep_skip (st : FSTree) (url : String)
    (h : stripIf (fun c => c = '/') (urlparse url.data []).path = []) :
    buildStep st url = st := by
  simp [buildStep, h]

/-! ## Claim C1 -/

/-- C1, as stated, is false: on `["https://x.com/a", "https://x.com/a/b"]`
the key `a`, which maps to the leaf `https://x.com/a` when the second URL is
inserted, is NOT overwritten with a directory node; the leaf survives and
the second URL's deeper segment `b` is inserted at the top level instead. -/
theorem C1_counterexample :
    build_file_structure ["https://x.com/a", "https://x.com/a/b"] =
      [("a", FSNode.leaf "https://x.com/a"),
       ("b", FSNode.leaf "https://x.com/a/b")] ∧
    lookupKey "a" (build_file_structure ["https://x.com/a", "https://x.com/a/b"]) =
      some (FSNode.leaf "https://x.com/a") :=
  ⟨rfl, rfl⟩

/-- C1 (amended): in `build_file_structure`, a path segment whose key
currently maps to a leaf URL string is NOT overwritten when a later URL
reuses that segment as a directory prefix: the walk silently stays at the
same dictionary (no conflict error) and the later URL's deeper segments are
inserted at that same level, as if the leaf segment were absent from the
path.  In the other direction last write wins: setting a final path segment
overwrites whatever node its key held. -/
theorem C1_amended_leaf_prefix (t : FSTree) (p q : String) (rest : List String)
    (u url : String) (h : lookupKey p t = some (.leaf u)) :
    insertParts t (p :: q :: rest) url = insertParts t (q :: rest) url ∧
    lookupKey p (insertParts t [p] url) = some (.leaf url) := by
  constructor
  · simp [insertParts, h]
  · simp [insertParts, lookupKey_setKey_self]

/-- Witness for `C1_amended_leaf_prefix` at a concrete tree. -/
theorem C1_amended_leaf_prefix_witness :
    insertParts [("a", FSNode.leaf "https://x.com/a")] ["a", "b"] "https://x.com/a/b" =
      insertParts [("a", FSNode.leaf "https://x.com/a")] ["b"] "https://x.com/a/b" ∧
    lookupKey "a" (insertParts [("a", FSNode.leaf "https://x.com/a")] ["a"] "https://x.com/a/b") =
      some (FSNode.leaf "https://x.com/a/b") :=
  C1_amended_leaf_prefix [("a", FSNode.leaf "https://x.com/a")] "a" "b" []
    "https://x.com/a" "https://x.com/a/b" rfl

/-! ## Claim C10 -/

/-- C10: every string value at a leaf of the mapping returned by
`build_file_structure` is an element of the input list; a URL whose parsed
path component is empty after stripping `/` contributes no entry at all;
the empty input list yields the empty mapping. -/
theorem C10_leaf_values_from_input :
    (∀ (urls : List String) (x : String),
        x ∈ leafValuesT (build_file_structure urls) → x ∈ urls) ∧
    (∀ (l1 l2 : List String) (url : String),
        stripIf (fun c => c = '/') (urlparse url.data []).path = [] →
        build_file_structure (l1 ++ url :: l2) = build_file_structure (l1 ++ l2)) ∧
    build_file_structure [] = [] := by
  refine ⟨?_, ?_, rfl⟩
  · intro urls x h
    rcases mem_leafValuesT_foldl urls [] x h with h1 | h1
    · simp [leafValuesT] at h1
    · exact h1
  · intro l1 l2 url h
    unfold build_file_structure
    rw [List.foldl_append, List.foldl_append, List.foldl_cons,
      buildStep_skip _ _ h]

/-- Witness for `C10_leaf_values_from_input` on concrete inputs: the single
leaf of a one-URL tree is that URL, and a URL with an empty path
(`https://x.com`) contributes nothing. -/
theorem C10_leaf_values_witness :
    "https://x.com/a/b.css" ∈ ["https://x.com/a/b.css"] ∧
    build_file_structure ([] ++ "https://x.com" :: ["https://y.com/z.css"]) =
      build_file_structure ([] ++ ["https://y.com/z.css"]) :=
  ⟨C10_leaf_values_from_input.1 ["https://x.com/a/b.css"] "https://x.com/a/b.css"
      (by decide),
   C10_leaf_values_from_input.2.1 [] ["https://y.com/z.css"] "https://x.com"
      (by decide)⟩

/-! ## Claim C2 -/

/-- C2, as stated, is false: for the document consisting of
`<link rel="stylesheet" href="f.woff">` the resolved URL appears in BOTH
`extract_css_files` (stylesheet link) and `extract_other_files` (link href
ending in a font extension), so the four category lists are not pairwise
disjoint. -/
theorem C2_counterexample :
    "https://x.com/f.woff" ∈ extract_css_files linkWoffExtractor ∧
    "https://x.com/f.woff" ∈ extract_other_files linkWoffExtractor := by
  decide

/-- C2 (amended): each of the four per-category result lists is
duplicate-free, but the lists are not pairwise disjoint: the same URL can
appear in more than one category when it is found in extraction contexts of
different categories (see `C2_counterexample`). -/
theorem C2_amended_each_list_nodup (e : WebsiteExtractor) :
    (extract_css_files e).Nodup ∧ (extract_js_files e).Nodup ∧
    (extract_images e).Nodup ∧ (extract_other_files e).Nodup := by
  cases h : e.soup with
  | none =>
    refine ⟨?_, ?_, ?_, ?_⟩ <;>
      simp [extract_css_files, extract_js_files, extract_images,
        extract_other_files, h]
  | some roots =>
    refine ⟨?_, ?_, ?_, ?_⟩ <;>
      simp [extract_css_files, extract_js_files, extract_images,
        extract_other_files, h, List.nodup_dedup]

/-! ## Claim C7 -/

/-- C7: on an extractor whose document has not been fetched and parsed
(`soup` is `none`), each of the six extraction operations returns the empty
list (and, being a total function, raises no error). -/
theorem C7_empty_before_fetch (e : WebsiteExtractor) (h : e.soup = none) :
    extract_css_files e = [] ∧ extract_js_files e = [] ∧
    extract_images e = [] ∧ extract_other_files e = [] ∧
    extract_colors e = [] ∧ extract_fonts e = [] := by
  refine ⟨?_, ?_, ?_, ?_, ?_, ?_⟩ <;>
    simp [extract_css_files, extract_js_files, extract_images,
      extract_other_files, extract_colors, extract_fonts, h]

/-- Witness for `C7_empty_before_fetch` on a freshly constructed
extractor. -/
theorem C7_empty_before_fetch_witness :
    extract_css_files { url := "https://x.com", soup := none } = [] ∧
    extract_js_files { url := "https://x.com", soup := none } = [] ∧
    extract_images { url := "https://x.com", soup := none } = [] ∧
    extract_other_files { url := "https://x.com", soup := none } = [] ∧
    extract_colors { url := "https://x.com", soup := none } = [] ∧
    extract_fonts { url := "https://x.com", soup := none } = [] :=
  C7_empty_before_fetch { url := "https://x.com", soup := none } rfl

/-! ## Claim C9 -/

/-- C9: each of the six extraction operations leaves the extractor state
(in particular the parsed document it reads) unchanged, and running it twice
on the same fetched state yields identical results. -/
theorem C9_extraction_idempotent (e : WebsiteExtractor)
    (op : WebsiteExtractor → List String)
    (hop : op ∈ [extract_css_files, extract_js_files, extract_images,
      extract_other_files, extract_colors, extract_fonts]) :
    (runExtraction op e).2 = e ∧
    (runExtraction op (runExtraction op e).2).1 = (runExtraction op e).1 :=
  ⟨rfl, rfl⟩

/-- Witness for `C9_extraction_idempotent` at a concrete operation and
state. -/
theorem C9_extraction_idempotent_witness :
    (runExtraction extract_css_files linkWoffExtractor).2 = linkWoffExtractor ∧
    (runExtraction extract_css_files
        (runExtraction extract_css_files linkWoffExtractor).2).1 =
      (runExtraction extract_css_files linkWoffExtractor).1 :=
  C9_extraction_idempotent linkWoffExtractor extract_css_files
    (List.mem_cons_self _ _)

/-! ## Lemmas: `urlsplit` on well-formed absolute URLs -/

theorem splitFirst_of_not_mem (c : Char) (a b : List Char) (h : c ∉ a) :
    splitFirst c (a ++ c :: b) = some (a, b) := by
  induction a with
  | nil => simp [splitFirst]
  | cons d ds ih =>
    have hd : ¬ d = c := fun hh => h (by simp [hh])
    have := ih (fun hh => h (List.mem_cons_of_mem d hh))
    simp [splitFirst, hd, this]

theorem takeUntil_all (p : Char → Bool) (s : List Char)
    (h : ∀ c ∈ s, p c = false) : takeUntil p s = (s, []) := by
  induction s with
  | nil => rfl
  | cons x xs ih =>
    have hx : p x = false := h x (by simp)
    have := ih (fun c hc => h c (List.mem_cons_of_mem x hc))
    simp [takeUntil, hx, this]

theorem splitFirst_eq_none (c : Char) (s : List Char) (h : c ∉ s) :
    splitFirst c s = none := by
  induction s with
  | nil => rfl
  | cons d ds ih =>
    have hd : ¬ d = c := fun hh => h (by simp [hh])
    have := ih (fun hh => h (List.mem_cons_of_mem d hh))
    simp [splitFirst, hd, this]

theorem takeUntil_append (p : Char → Bool) (a : List Char) (d : Char)
    (b : List Char) (ha : ∀ c ∈ a, p c = false) (hd : p d = true) :
    takeUntil p (a ++ d :: b) = (a, d :: b) := by
  induction a with
  | nil => simp [takeUntil, hd]
  | cons x xs ih =>
    have hx : p x = false := ha x (by simp)
    have := ih (fun c hc => ha c (List.mem_cons_of_mem x hc))
    simp [takeUntil, hx, this]

/-- `urlsplit` on a well-formed absolute http(s) URL `sch://host/path`:
the parts are recovered exactly. -/
theorem urlsplit_abs (sch host path defS : List Char)
    (hsch : sch = "http".data ∨ sch = "https".data)
    (hhostc : ∀ c ∈ host, c ≠ '/' ∧ c ≠ '?' ∧ c ≠ '#')
    (hpath : path = [] ∨ ∃ p', path = '/' :: p')
    (hpathc : ∀ c ∈ path, c ≠ '?' ∧ c ≠ '#') :
    urlsplit (sch ++ ':' :: '/' :: '/' :: (host ++ path)) defS =
      (sch, host, path, [], []) := by
  have hnetloc : takeUntil (fun c => c = '/' ∨ c = '?' ∨ c = '#') (host ++ path)
      = (host, path) := by
    rcases hpath with rfl | ⟨p', rfl⟩
    · rw [List.append_nil]
      exact takeUntil_all _ host (fun c hc => by
        rcases hhostc c hc with ⟨h1, h2, h3⟩
        simp [h1, h2, h3])
    · exact takeUntil_append _ host '/' p' (fun c hc => by
        rcases hhostc c hc with ⟨h1, h2, h3⟩
        simp [h1, h2, h3]) (by simp)
  have hnofrag : splitFirst '#' path = none :=
    splitFirst_eq_none _ _ (fun hc => (hpathc '#' hc).2 rfl)
  have hnoq : splitFirst '?' path = none :=
    splitFirst_eq_none _ _ (fun hc => (hpathc '?' hc).1 rfl)
  rcases hsch with rfl | rfl
  · simp only [urlsplit]
    rw [splitFirst_of_not_mem ':' "http".data _ (by decide)]
    dsimp only
    rw [if_pos (show ('h').isAlpha = true ∧ (['t','t','p'] : List Char).all isSchemeChar = true by decide)]
    rw [show lowerL "http".data = "http".data from by decide]
    simp only [startsWithL, List.drop_succ_cons, List.drop_zero]
    simp only [decide_True, Bool.and_self, if_true]
    rw [hnetloc, hnofrag, hnoq]
  · simp only [urlsplit]
    rw [splitFirst_of_not_mem ':' "https".data _ (by decide)]
    dsimp only
    rw [if_pos (show ('h').isAlpha = true ∧ (['t','t','p','s'] : List Char).all isSchemeChar = true by decide)]
    rw [show lowerL "https".data = "https".data from by decide]
    simp only [startsWithL, List.drop_succ_cons, List.drop_zero]
    simp only [decide_True, Bool.and_self, if_true]
    rw [hnetloc, hnofrag, hnoq]

/-- `urlparse` on the same shape, additionally free of `;` in the path. -/
theorem urlparse_abs (sch host path defS : List Char)
    (hsch : sch = "http".data ∨ sch = "https".data)
    (hhostc : ∀ c ∈ host, c ≠ '/' ∧ c ≠ '?' ∧ c ≠ '#')
    (hpath : path = [] ∨ ∃ p', path = '/' :: p')
    (hpathc : ∀ c ∈ path, c ≠ '?' ∧ c ≠ '#' ∧ c ≠ ';') :
    urlparse (sch ++ ':' :: '/' :: '/' :: (host ++ path)) defS =
      ⟨sch, host, path, [], [], []⟩ := by
  have hsplit := urlsplit_abs sch host path defS hsch hhostc hpath
    (fun c hc => ⟨(hpathc c hc).1, (hpathc c hc).2.1⟩)
  have hsemi : path.contains ';' = false := by
    cases h : path.contains ';'
    · rfl
    · exact absurd rfl ((hpathc ';' (List.mem_of_elem_eq_true h)).2.2)
  simp only [urlparse, hsplit]
  rw [if_neg (fun h => Bool.false_ne_true (hsemi.symm.trans h.2))]

/-- C8: reference resolution against the page URL follows RFC 3986 base
resolution as implemented by `urllib.parse.urljoin`: a root-relative
reference (`/a.css`) replaces the whole base path, a document-relative
reference (`b.css`, `../up.css`) is resolved against the base directory,
protocol-relative references get the base scheme, and an absolute reference
is returned unchanged — verbatim when its scheme differs from the base
scheme, and for every well-formed `http(s)://host/path` reference sharing
the base scheme. -/
theorem C8_reference_resolution :
    urljoin "https://x.com/dir/page.html" "/a.css" = "https://x.com/a.css" ∧
    urljoin "https://x.com/dir/page.html" "b.css" = "https://x.com/dir/b.css" ∧
    urljoin "https://x.com/dir/page.html" "//cdn.y.com/l.js" =
      "https://cdn.y.com/l.js" ∧
    urljoin "https://x.com/dir/page.html" "../up.css" = "https://x.com/up.css" ∧
    (∀ base ref : String, base.data ≠ [] → ref.data ≠ [] →
      (urlparse ref.data (urlparse base.data []).scheme).scheme ≠
        (urlparse base.data []).scheme →
      urljoin base ref = ref) ∧
    (∀ (base : String) (sch host path : List Char),
      sch = "http".data ∨ sch = "https".data →
      (∀ c ∈ host, c ≠ '/' ∧ c ≠ '?' ∧ c ≠ '#') →
      (path = [] ∨ ∃ p', path = '/' :: p') →
      (∀ c ∈ path, c ≠ '?' ∧ c ≠ '#' ∧ c ≠ ';') →
      host ≠ [] → base.data ≠ [] →
      (urlparse base.data []).scheme = sch →
      urljoin base (String.mk (sch ++ ':' :: '/' :: '/' :: (host ++ path))) =
        String.mk (sch ++ ':' :: '/' :: '/' :: (host ++ path))) := by
  refine ⟨by decide, by decide, by decide, by decide, ?_, ?_⟩
  · intro base ref hbase href hsch
    obtain ⟨bl⟩ := base
    obtain ⟨rl⟩ := ref
    show String.mk (urljoinL bl rl) = String.mk rl
    unfold urljoinL
    rw [if_neg hbase, if_neg href, if_pos (Or.inl hsch)]
  · intro base sch host path hsch hhostc hpath hpathc hhost hbase hbsch
    obtain ⟨bl⟩ := base
    have hparse := urlparse_abs sch host path (urlparse bl []).scheme hsch
      hhostc hpath hpathc
    have hne : sch ++ ':' :: '/' :: '/' :: (host ++ path) ≠ [] := by
      rcases hsch with h | h <;> subst h <;> simp
    show String.mk (urljoinL bl _) = _
    unfold urljoinL
    dsimp only
    rw [if_neg hbase, if_neg hne, hparse]
    dsimp only
    have husesRel : usesRelative.contains sch = true := by
      rcases hsch with h | h <;> subst h <;> decide
    have husesNet : usesNetloc.contains sch = true := by
      rcases hsch with h | h <;> subst h <;> decide
    rw [if_neg (fun h => h.elim (fun h1 => h1 hbsch.symm)
      (fun h2 => absurd (husesRel.symm.trans h2) (by decide)))]
    rw [if_pos ⟨husesNet, hhost⟩]
    have hp2 : (if ¬ path = [] ∧ startsWithL ['/'] path = false then '/' :: path
        else path) = path := by
      rcases hpath with rfl | ⟨p', rfl⟩
      · simp
      · simp [startsWithL]
    have hschne : sch ≠ [] := by rcases hsch with h | h <;> subst h <;> simp
    simp [urlunparse, urlunsplit, hhost, hp2, hschne]


/-- Witness for `C8_reference_resolution`: a `mailto:` reference and a
same-scheme absolute reference are both returned unchanged. -/
theorem C8_reference_resolution_witness :
    urljoin "https://x.com/a" "mailto:u@y.z" = "mailto:u@y.z" ∧
    urljoin "https://x.com/dir/page.html"
        (String.mk ("https".data ++ ':' :: '/' :: '/' ::
          ("y.com".data ++ "/q.css".data))) =
      String.mk ("https".data ++ ':' :: '/' :: '/' ::
        ("y.com".data ++ "/q.css".data)) :=
  ⟨C8_reference_resolution.2.2.2.2.1 "https://x.com/a" "mailto:u@y.z"
      (by decide) (by decide) (by decide),
   C8_reference_resolution.2.2.2.2.2 "https://x.com/dir/page.html"
      "https".data "y.com".data "/q.css".data (Or.inr rfl)
      (by decide) (Or.inr ⟨"q.css".data, rfl⟩) (by decide)
      (by decide) (by decide) (by decide)⟩

/-! ## Claim C6 -/

/-- A `filterMap` by a function that agrees with `g` except for returning
`none` more often yields a sublist: failures only omit entries. -/
theorem filterMap_sublist_of_agree {α β : Type} (f g : α → Option β)
    (hfg : ∀ x, f x = none ∨ f x = g x) :
    ∀ (l : List α), (l.filterMap f).Sublist (l.filterMap g)
  | [] => List.Sublist.refl _
  | a :: l => by
    rcases hfg a with h | h
    · rw [List.filterMap_cons, h]
      cases hg : g a with
      | none =>
        rw [List.filterMap_cons, hg]
        exact filterMap_sublist_of_agree f g hfg l
      | some b =>
        rw [List.filterMap_cons, hg]
        exact (filterMap_sublist_of_agree f g hfg l).cons b
    · rw [List.filterMap_cons, h, List.filterMap_cons]
      cases hg : g a with
      | none => exact filterMap_sublist_of_agree f g hfg l
      | some b => exact (filterMap_sublist_of_agree f g hfg l).cons₂ b

theorem addCategoryEntries_sublist (fetch : String → Option String)
    (u0 : String) (cap : Nat) (dirName dflt : String) (urls : List String) :
    (addCategoryEntries (fun u => if u = u0 then none else fetch u) cap
        dirName dflt urls).Sublist
      (addCategoryEntries fetch cap dirName dflt urls) := by
  unfold addCategoryEntries
  refine filterMap_sublist_of_agree _ _ (fun u => ?_) _
  by_cases h : u = u0
  · simp [h]
  · simp [h]

/-- C6: in `download_all_files` at most 20 CSS, 20 JS, 30 image and 10
other-file URLs are attempted (the first `cap` of each list); the archive
always starts with the `index.html` entry; every attempted CSS URL whose
fetch succeeds contributes its entry; making the fetch of any single URL
fail only omits entries (the rest of the archive is untouched and the
operation still succeeds); and in the concrete 25-CSS-URL scenario where 3
of the 20 attempted fetches fail, the archive is the HTML entry plus the 17
successful CSS entries. -/
theorem C6_bulk_archive (fetch : String → Option String) (html : String)
    (css js imgs others : List String) (u0 : String) :
    (∀ u c, u ∈ attemptedUrls 20 css → fetch u = some c →
      ("css/" ++ zipFilename u "style.css", c) ∈
        download_all_files fetch html css js imgs others) ∧
    attemptedUrls 20 css = css.take 20 ∧
    (attemptedUrls 20 css).length ≤ 20 ∧
    (attemptedUrls 20 js).length ≤ 20 ∧
    (attemptedUrls 30 imgs).length ≤ 30 ∧
    (attemptedUrls 10 others).length ≤ 10 ∧
    (download_all_files fetch html css js imgs others).head? =
      some ("index.html", html) ∧
    (download_all_files (fun u => if u = u0 then none else fetch u) html
        css js imgs others).Sublist
      (download_all_files fetch html css js imgs others) ∧
    (attemptedUrls 20 bulkCssUrls).length = 20 ∧
    (addCategoryEntries bulkFetch 20 "css" "style.css" bulkCssUrls).length = 17 ∧
    (download_all_files bulkFetch "<html>" bulkCssUrls [] [] []).length = 18 ∧
    (download_all_files bulkFetch "<html>" bulkCssUrls [] [] []).head? =
      some ("index.html", "<html>") := by
  refine ⟨?_, rfl, List.length_take_le 20 css, List.length_take_le 20 js,
    List.length_take_le 30 imgs, List.length_take_le 10 others, rfl, ?_,
    by decide, by decide, by decide, by decide⟩
  · intro u c hu hc
    refine List.mem_cons_of_mem _ ?_
    refine List.mem_append.mpr (Or.inl (List.mem_append.mpr (Or.inl
      (List.mem_append.mpr (Or.inl ?_)))))
    exact List.mem_filterMap.mpr ⟨u, hu, by rw [hc]; rfl⟩
  · refine List.Sublist.cons₂ _ ?_
    exact ((((addCategoryEntries_sublist fetch u0 20 "css" "style.css"
      css).append (addCategoryEntries_sublist fetch u0 20 "js" "script.js"
      js)).append (addCategoryEntries_sublist fetch u0 30 "images"
      "image.jpg" imgs)).append (addCategoryEntries_sublist fetch u0 10
      "others" "file" others))

/-! ## Lemmas: characters -/

theorem char_toNat_le_of_le {a b : Char} (h : a ≤ b) : a.toNat ≤ b.toNat := by
  simp [Char.le_def] at h
  simpa [Char.toNat] using h

theorem charLower_toNat_of_upper {c : Char} (h : 'A' ≤ c ∧ c ≤ 'Z') :
    (charLower c).toNat = c.toNat + 32 := by
  have hz : c.toNat ≤ 90 := by
    have := char_toNat_le_of_le h.2
    simpa using this
  have hv : (c.toNat + 32).isValidChar := by
    left
    omega
  simp only [charLower, h, and_self, if_true, ite_true]
  simp only [Char.ofNat, hv, dite_true]
  simp only [Char.ofNatAux, Char.toNat, UInt32.toNat]
  exact BitVec.toNat_ofNatLt _ _

/-- A hexadecimal digit never lower-cases to `r` or `h` (the head letters of
the color-function patterns). -/
theorem hex_charLower_ne {d : Char} (h : isHexC d = true) :
    charLower d ≠ 'r' ∧ charLower d ≠ 'h' := by
  simp only [isHexC, isDigitC, Bool.or_eq_true, decide_eq_true_eq] at h
  rcases h with h | h | h
  · have h1 : ¬('A' ≤ d ∧ d ≤ 'Z') :=
      fun hc => absurd (le_trans hc.1 h.2) (by decide)
    simp only [charLower]
    rw [if_neg h1]
    constructor
    · intro he
      subst he
      exact absurd h.2 (by decide)
    · intro he
      subst he
      exact absurd h.2 (by decide)
  · have h1 : ¬('A' ≤ d ∧ d ≤ 'Z') :=
      fun hc => absurd (le_trans h.1 hc.2) (by decide)
    simp only [charLower]
    rw [if_neg h1]
    constructor
    · intro he
      subst he
      exact absurd h.2 (by decide)
    · intro he
      subst he
      exact absurd h.2 (by decide)
  · have hAZ : 'A' ≤ d ∧ d ≤ 'Z' := ⟨h.1, le_trans h.2 (by decide)⟩
    have ht := charLower_toNat_of_upper hAZ
    have hFb : d.toNat ≤ 70 := by
      have := char_toNat_le_of_le h.2
      simpa using this
    constructor
    · intro he
      rw [he] at ht
      have h114 : ('r' : Char).toNat = 114 := rfl
      omega
    · intro he
      rw [he] at ht
      have h104 : ('h' : Char).toNat = 104 := rfl
      omega

/-! ## Lemmas: scanners -/

theorem eatLit_suffix (ci : Bool) : ∀ (lit s r : List Char),
    eatLit ci lit s = some r → r <:+ s ∧ r.length + lit.length = s.length
  | [], s, r => fun h => by
    simp only [eatLit, Option.some.injEq] at h
    subst h
    exact ⟨List.suffix_refl s, by simp⟩
  | l :: ls, [], r => fun h => by simp [eatLit] at h
  | l :: ls, c :: cs, r => fun h => by
    simp only [eatLit] at h
    by_cases hcond : (if ci = true then charLower c = charLower l else c = l)
    · rw [if_pos hcond] at h
      have ih := eatLit_suffix ci ls cs r h
      refine ⟨ih.1.trans (List.suffix_cons c cs), ?_⟩
      have := ih.2
      simp only [List.length_cons]
      omega
    · rw [if_neg hcond] at h
      exact absurd h (by simp)

theorem eatLit_head (ci : Bool) (l : Char) (ls s r : List Char)
    (h : eatLit ci (l :: ls) s = some r) :
    ∃ c cs, s = c :: cs ∧ (if ci = true then charLower c = charLower l else c = l) := by
  cases s with
  | nil => simp [eatLit] at h
  | cons c cs =>
    simp only [eatLit] at h
    by_cases hcond : (if ci = true then charLower c = charLower l else c = l)
    · exact ⟨c, cs, rfl, hcond⟩
    · rw [if_neg hcond] at h
      exact absurd h (by simp)

theorem eatChar_eq (c : Char) (s r : List Char) (h : eatChar c s = some r) :
    s = c :: r := by
  cases s with
  | nil => simp [eatChar] at h
  | cons d ds =>
    simp only [eatChar] at h
    by_cases hd : d = c
    · rw [if_pos hd] at h
      cases h
      rw [hd]
    · rw [if_neg hd] at h
      exact absurd h (by simp)

theorem eatChar_suffix (c : Char) (s r : List Char) (h : eatChar c s = some r) :
    r <:+ s ∧ r.length < s.length := by
  rw [eatChar_eq c s r h]
  exact ⟨List.suffix_cons c r, by simp⟩

theorem eatRun_eq (p : Char → Bool) (s g r : List Char)
    (h : eatRun p s = some (g, r)) :
    g ++ r = s ∧ g ≠ [] ∧ r <:+ s := by
  simp only [eatRun] at h
  by_cases hw : s.takeWhile p = []
  · rw [if_pos hw] at h
    exact absurd h (by simp)
  · rw [if_neg hw] at h
    simp only [Option.some.injEq, Prod.mk.injEq] at h
    obtain ⟨hg, hr⟩ := h
    subst hg
    subst hr
    exact ⟨List.takeWhile_append_dropWhile p s, hw, List.dropWhile_suffix p⟩

theorem eatNumComp_suffix (sep : Char) (tp : Bool) (s r : List Char)
    (h : eatNumComp sep tp s = some r) : r <:+ s := by
  simp only [eatNumComp] at h
  cases hr : eatRun isDigitC (s.dropWhile isPyWs) with
  | none => rw [hr] at h; exact absurd h (by simp)
  | some p =>
    rw [hr] at h
    obtain ⟨g2, r2⟩ := p
    have h2 : r2 <:+ s := (eatRun_eq _ _ _ _ hr).2.2.trans (List.dropWhile_suffix isPyWs)
    have step : ∀ r4, eatChar sep (r4.dropWhile isPyWs) = some r → r4 <:+ s → r <:+ s := by
      intro r4 hec hr4
      exact ((eatChar_suffix _ _ _ hec).1.trans (List.dropWhile_suffix isPyWs)).trans hr4
    cases tp with
    | false =>
      simp only [Bool.false_eq_true, if_false, ite_false] at h
      exact step r2 h h2
    | true =>
      simp only [if_true, ite_true] at h
      cases hp : eatChar '%' r2 with
      | none => rw [hp] at h; exact absurd h (by simp)
      | some r4 =>
        rw [hp] at h
        exact step r4 h ((eatChar_suffix _ _ _ hp).1.trans h2)

/-- The tail chain of the rgb pattern consumes at least the literal and
starts at a head letter lower-casing to `r`. -/
theorem rgbTail_spec (s rest : List Char) (h : rgbTail s = some rest) :
    rest <:+ s ∧ rest.length < s.length ∧
      ∃ d cs, s = d :: cs ∧ charLower d = charLower 'r' := by
  simp only [rgbTail] at h
  cases h1 : eatLit true "rgb".data s with
  | none => rw [h1] at h; exact absurd h (by simp)
  | some r1 =>
    simp only [h1] at h
    have hs1 := eatLit_suffix true _ _ _ h1
    obtain ⟨d, cs, hscons, hd⟩ := eatLit_head true 'r' ['g', 'b'] _ _ h1
    cases h2 : eatChar '(' (r1.dropWhile isPyWs) with
    | none => rw [h2] at h; exact absurd h (by simp)
    | some r2 =>
      simp only [h2] at h
      have hs2 : r2 <:+ r1 :=
        (eatChar_suffix _ _ _ h2).1.trans (List.dropWhile_suffix isPyWs)
      cases h3 : eatNumComp ',' false r2 with
      | none => rw [h3] at h; exact absurd h (by simp)
      | some r3 =>
        simp only [h3] at h
        have hs3 := eatNumComp_suffix _ _ _ _ h3
        cases h4 : eatNumComp ',' false r3 with
        | none => rw [h4] at h; exact absurd h (by simp)
        | some r4 =>
          simp only [h4] at h
          have hs4 := eatNumComp_suffix _ _ _ _ h4
          have hs5 := eatNumComp_suffix _ _ _ _ h
          have hrest : rest <:+ r1 := ((hs5.trans hs4).trans hs3).trans hs2
          refine ⟨hrest.trans hs1.1, ?_, d, cs, hscons, by simpa using hd⟩
          have hl := hrest.length_le
          have h2len := hs1.2
          have h3len : ("rgb".data).length = 3 := rfl
          omega

theorem rgbaTail_spec (s rest : List Char) (h : rgbaTail s = some rest) :
    rest <:+ s ∧ rest.length < s.length ∧
      ∃ d cs, s = d :: cs ∧ charLower d = charLower 'r' := by
  simp only [rgbaTail] at h
  cases h1 : eatLit true "rgba".data s with
  | none => rw [h1] at h; exact absurd h (by simp)
  | some r1 =>
    simp only [h1] at h
    have hs1 := eatLit_suffix true _ _ _ h1
    obtain ⟨d, cs, hscons, hd⟩ := eatLit_head true 'r' ['g', 'b', 'a'] _ _ h1
    cases h2 : eatChar '(' (r1.dropWhile isPyWs) with
    | none => rw [h2] at h; exact absurd h (by simp)
    | some r2 =>
      simp only [h2] at h
      have hs2 : r2 <:+ r1 :=
        (eatChar_suffix _ _ _ h2).1.trans (List.dropWhile_suffix isPyWs)
      cases h3 : eatNumComp ',' false r2 with
      | none => rw [h3] at h; exact absurd h (by simp)
      | some r3 =>
        simp only [h3] at h
        have hs3 := eatNumComp_suffix _ _ _ _ h3
        cases h4 : eatNumComp ',' false r3 with
        | none => rw [h4] at h; exact absurd h (by simp)
        | some r4 =>
          simp only [h4] at h
          have hs4 := eatNumComp_suffix _ _ _ _ h4
          cases h5 : eatNumComp ',' false r4 with
          | none => rw [h5] at h; exact absurd h (by simp)
          | some r5 =>
            simp only [h5] at h
            have hs5 := eatNumComp_suffix _ _ _ _ h5
            cases h6 : eatRun (fun c => isDigitC c ∨ c = '.')
                (r5.dropWhile isPyWs) with
            | none => rw [h6] at h; exact absurd h (by simp)
            | some p6 =>
              obtain ⟨g6, r6⟩ := p6
              simp only [h6] at h
              have hs6 : r6 <:+ r5 :=
                (eatRun_eq _ _ _ _ h6).2.2.trans (List.dropWhile_suffix isPyWs)
              have hs7 : rest <:+ r6 :=
                (eatChar_suffix _ _ _ h).1.trans (List.dropWhile_suffix isPyWs)
              have hrest : rest <:+ r1 :=
                ((((hs7.trans hs6).trans hs5).trans hs4).trans hs3).trans hs2
              refine ⟨hrest.trans hs1.1, ?_, d, cs, hscons, by simpa using hd⟩
              have hl := hrest.length_le
              have h2len := hs1.2
              have h4len : ("rgba".data).length = 4 := rfl
              omega

theorem hslTail_spec (s rest : List Char) (h : hslTail s = some rest) :
    rest <:+ s ∧ rest.length < s.length ∧
      ∃ d cs, s = d :: cs ∧ charLower d = charLower 'h' := by
  simp only [hslTail] at h
  cases h1 : eatLit true "hsl".data s with
  | none => rw [h1] at h; exact absurd h (by simp)
  | some r1 =>
    simp only [h1] at h
    have hs1 := eatLit_suffix true _ _ _ h1
    obtain ⟨d, cs, hscons, hd⟩ := eatLit_head true 'h' ['s', 'l'] _ _ h1
    cases h2 : eatChar '(' (r1.dropWhile isPyWs) with
    | none => rw [h2] at h; exact absurd h (by simp)
    | some r2 =>
      simp only [h2] at h
      have hs2 : r2 <:+ r1 :=
        (eatChar_suffix _ _ _ h2).1.trans (List.dropWhile_suffix isPyWs)
      cases h3 : eatNumComp ',' false r2 with
      | none => rw [h3] at h; exact absurd h (by simp)
      | some r3 =>
        simp only [h3] at h
        have hs3 := eatNumComp_suffix _ _ _ _ h3
        cases h4 : eatNumComp ',' true r3 with
        | none => rw [h4] at h; exact absurd h (by simp)
        | some r4 =>
          simp only [h4] at h
          have hs4 := eatNumComp_suffix _ _ _ _ h4
          have hs5 := eatNumComp_suffix _ _ _ _ h
          have hrest : rest <:+ r1 := ((hs5.trans hs4).trans hs3).trans hs2
          refine ⟨hrest.trans hs1.1, ?_, d, cs, hscons, by simpa using hd⟩
          have hl := hrest.length_le
          have h2len := hs1.2
          have h3len : ("hsl".data).length = 3 := rfl
          omega

theorem take_of_suffix (s rest : List Char) (hsuf : rest <:+ s) :
    s.take (s.length - rest.length) ++ rest = s := by
  obtain ⟨t, rfl⟩ := hsuf
  have hlen : (t ++ rest).length - rest.length = t.length := by simp
  rw [hlen, List.take_left]

/-- The shared spec of the three whole-match color scanners: the match is a
verbatim infix of the input and begins with the pattern's head letter. -/
theorem tryColorAt_spec (tail : List Char → Option (List Char)) (hc : Char)
    (hspec : ∀ s rest, tail s = some rest → rest <:+ s ∧
      rest.length < s.length ∧ ∃ d cs, s = d :: cs ∧ charLower d = charLower hc)
    (s m r : List Char)
    (h : (tail s).map (fun rest => (s.take (s.length - rest.length), rest)) =
      some (m, r)) :
    m <:+: s ∧ r <:+ s ∧ ∃ d m2, m = d :: m2 ∧ charLower d = charLower hc := by
  cases ht : tail s with
  | none => rw [ht] at h; exact absurd h (by simp)
  | some rest =>
    rw [ht] at h
    simp only [Option.map_some', Option.some.injEq, Prod.mk.injEq] at h
    obtain ⟨hm, hr⟩ := h
    subst hr
    obtain ⟨hsuf, hlt, d, cs, hscons, hd⟩ := hspec s rest ht
    have hmr : m ++ rest = s := by
      rw [← hm]
      exact take_of_suffix s rest hsuf
    refine ⟨(show m <+: s from ⟨rest, hmr⟩).isInfix, hsuf, ?_⟩
    obtain ⟨k, hk⟩ : ∃ k, s.length - rest.length = k + 1 :=
      ⟨s.length - rest.length - 1, by omega⟩
    rw [← hm, hk, hscons]
    exact ⟨d, cs.take k, rfl, hd⟩

theorem tryRgbAt_spec (s m r : List Char) (h : tryRgbAt s = some (m, r)) :
    m <:+: s ∧ r <:+ s ∧ ∃ d m2, m = d :: m2 ∧ charLower d = charLower 'r' :=
  tryColorAt_spec rgbTail 'r' rgbTail_spec s m r h

theorem tryRgbaAt_spec (s m r : List Char) (h : tryRgbaAt s = some (m, r)) :
    m <:+: s ∧ r <:+ s ∧ ∃ d m2, m = d :: m2 ∧ charLower d = charLower 'r' :=
  tryColorAt_spec rgbaTail 'r' rgbaTail_spec s m r h

theorem tryHslAt_spec (s m r : List Char) (h : tryHslAt s = some (m, r)) :
    m <:+: s ∧ r <:+ s ∧ ∃ d m2, m = d :: m2 ∧ charLower d = charLower 'h' :=
  tryColorAt_spec hslTail 'h' hslTail_spec s m r h

/-- The hex scanner only yields groups accepted by the clean-up check. -/
theorem tryHexAt_spec (s g r : List Char) (h : tryHexAt s = some (g, r)) :
    matchesHex36 g = true := by
  cases s with
  | nil => simp [tryHexAt] at h
  | cons c cs =>
    by_cases hc : c = '#'
    · subst hc
      simp only [tryHexAt, if_pos] at h
      by_cases h6 : (cs.take 6).length = 6 ∧ (cs.take 6).all isHexC = true ∧
          boundaryOk (cs.drop 6) = true
      · rw [if_pos h6] at h
        simp only [Option.some.injEq, Prod.mk.injEq] at h
        rw [← h.1]
        simp only [matchesHex36, h6.1, h6.2.1]
        decide
      · rw [if_neg h6] at h
        by_cases h3 : (cs.take 3).length = 3 ∧ (cs.take 3).all isHexC = true ∧
            boundaryOk (cs.drop 3) = true
        · rw [if_pos h3] at h
          simp only [Option.some.injEq, Prod.mk.injEq] at h
          rw [← h.1]
          simp only [matchesHex36, h3.1, h3.2.1]
          decide
        · rw [if_neg h3] at h
          exact absurd h (by simp)
    · have hnone : tryHexAt (c :: cs) = none := by
        simp only [tryHexAt]
        rw [if_neg hc]
      rw [hnone] at h
      exact absurd h (by simp)

/-! ## Lemmas: `pyFindall` -/

theorem mem_findAllWith {α : Type} (tm : List Char → Option (α × List Char))
    (P : α → Prop) (H : ∀ s v r, tm s = some (v, r) → P v) :
    ∀ (fuel : Nat) (s : List Char) (v : α), v ∈ findAllWith tm fuel s → P v := by
  intro fuel
  induction fuel with
  | zero => intro s v h; simp [findAllWith] at h
  | succ n ih =>
    intro s v h
    cases s with
    | nil => simp [findAllWith] at h
    | cons c cs =>
      simp only [findAllWith] at h
      cases htm : tm (c :: cs) with
      | none =>
        rw [htm] at h
        exact ih cs v h
      | some p =>
        obtain ⟨v', r'⟩ := p
        rw [htm] at h
        rcases List.mem_cons.mp h with rfl | h
        · exact H _ _ _ htm
        · exact ih r' v h

theorem mem_pyFindall {α : Type} (tm : List Char → Option (α × List Char))
    (P : α → Prop) (H : ∀ s v r, tm s = some (v, r) → P v)
    (s : List Char) (v : α) (hv : v ∈ pyFindall tm s) : P v :=
  mem_findAllWith tm P H s.length s v hv

theorem findAllWith_infix (tm : List Char → Option (List Char × List Char))
    (H : ∀ s v r, tm s = some (v, r) → v <:+: s ∧ r <:+ s) :
    ∀ (fuel : Nat) (s v : List Char), v ∈ findAllWith tm fuel s → v <:+: s := by
  intro fuel
  induction fuel with
  | zero => intro s v h; simp [findAllWith] at h
  | succ n ih =>
    intro s v h
    cases s with
    | nil => simp [findAllWith] at h
    | cons c cs =>
      simp only [findAllWith] at h
      cases htm : tm (c :: cs) with
      | none =>
        rw [htm] at h
        exact (ih cs v h).trans (List.suffix_cons c cs).isInfix
      | some p =>
        obtain ⟨v', r'⟩ := p
        rw [htm] at h
        rcases List.mem_cons.mp h with rfl | h
        · exact (H _ _ _ htm).1
        · exact (ih r' v h).trans (H _ _ _ htm).2.isInfix

theorem pyFindall_infix (tm : List Char → Option (List Char × List Char))
    (H : ∀ s v r, tm s = some (v, r) → v <:+: s ∧ r <:+ s)
    (s v : List Char) (hv : v ∈ pyFindall tm s) : v <:+: s :=
  findAllWith_infix tm H s.length s v hv

theorem C6_bulk_archive_witness :
    ("css/" ++ zipFilename "https://x.com/css/a0.css" "style.css", "body") ∈
      download_all_files bulkFetch "<html>" bulkCssUrls [] [] [] :=
  (C6_bulk_archive bulkFetch "<html>" bulkCssUrls [] [] [] "unused").1
    "https://x.com/css/a0.css" "body" (by decide) (by decide)

/-! ## Claim C4 -/

theorem cleanColor_hash (g : List Char) : cleanColor ('#' :: g) = '#' :: g := by
  simp [cleanColor, startsWithL]

theorem cleanColor_hexGroup (g : List Char) (hg : matchesHex36 g = true) :
    cleanColor g = '#' :: g := by
  have hg2 := hg
  simp only [matchesHex36, Bool.and_eq_true, decide_eq_true_eq] at hg2
  have hlen : 3 ≤ g.length := hg2.1.1
  obtain ⟨d, rest, rfl⟩ : ∃ d rest, g = d :: rest := by
    cases g with
    | nil => simp at hlen
    | cons d rest => exact ⟨d, rest, rfl⟩
  have hd : isHexC d = true := by
    have := hg2.2
    simp only [List.all_cons, Bool.and_eq_true] at this
    exact this.1
  have hdh : d ≠ '#' := by
    intro he
    subst he
    exact absurd hd (by decide)
  have hsw : startsWithL ['#'] (d :: rest) = false := by
    simp only [startsWithL, Bool.and_eq_false_iff]
    left
    simpa using fun he => hdh he.symm
  simp only [cleanColor, hsw, Bool.false_eq_true, if_false, hg, if_true,
    ite_true, ite_false]

theorem cleanColor_fnMatch (d : Char) (m2 : List Char)
    (hd : charLower d = 'r' ∨ charLower d = 'h') :
    cleanColor (d :: m2) = d :: m2 := by
  have hdh : d ≠ '#' := by
    intro he
    subst he
    rcases hd with h | h <;> exact absurd h (by decide)
  have hsw : startsWithL ['#'] (d :: m2) = false := by
    simp only [startsWithL, Bool.and_eq_false_iff]
    left
    simpa using fun he => hdh he.symm
  have hdhex : isHexC d = false := by
    cases hh : isHexC d
    · rfl
    · exfalso
      have := hex_charLower_ne hh
      rcases hd with h | h
      · exact this.1 h
      · exact this.2 h
  have hhex : matchesHex36 (d :: m2) = false := by
    simp [matchesHex36, List.all_cons, hdhex]
  simp only [cleanColor, hsw, Bool.false_eq_true, if_false, hhex, ite_false]

/-- Unfolding membership in `extract_colors` down to the raw color set. -/
theorem mem_extract_colors (e : WebsiteExtractor) (roots : List HNode)
    (h : e.soup = some roots) (c : String) :
    c ∈ extract_colors e ↔
      ∃ c0 ∈ colorFindsAll roots, c = String.mk (cleanColor c0) := by
  simp only [extract_colors, h, mem_pySort, List.mem_map, List.mem_dedup]
  constructor
  · rintro ⟨x, ⟨c0, hc0, rfl⟩, rfl⟩
    exact ⟨c0, hc0, rfl⟩
  · rintro ⟨c0, hc0, rfl⟩
    exact ⟨cleanColor c0, ⟨c0, hc0, rfl⟩, rfl⟩

/-- C4: `extract_colors` returns a duplicate-free list in lexicographic
sort order in which every hex color is `#`-prefixed (with a 3- or 6-digit
hex group) and every rgb/rgba/hsl color is one of the pattern's findall
matches, verbatim (an exact substring of a style source); on the document
with inline style `color:#FFF;background:#112233` and a style block
`.a{color:rgb(1, 2, 3)}` it returns exactly
`["#112233", "#FFF", "rgb(1, 2, 3)"]`. -/
theorem C4_extract_colors (e : WebsiteExtractor) :
    (extract_colors e).Sorted (· ≤ ·) ∧
    (extract_colors e).Nodup ∧
    (∀ c ∈ extract_colors e,
      (∃ g, c.data = '#' :: g ∧ matchesHex36 g = true) ∨
      (∃ src ∈ extractorStyleSources e,
        (c.data ∈ pyFindall tryRgbAt src.data ∨
         c.data ∈ pyFindall tryRgbaAt src.data ∨
         c.data ∈ pyFindall tryHslAt src.data) ∧ c.data <:+: src.data)) ∧
    extract_colors colorsExtractor = ["#112233", "#FFF", "rgb(1, 2, 3)"] := by
  have hmkinj : Function.Injective String.mk := by
    intro a b hab
    simpa using congrArg String.data hab
  refine ⟨?_, ?_, ?_, by decide⟩
  · cases h : e.soup with
    | none => simp [extract_colors, h]
    | some roots =>
      simp only [extract_colors, h]
      exact pySort_sorted _
  · cases h : e.soup with
    | none => simp [extract_colors, h]
    | some roots =>
      simp only [extract_colors, h]
      exact pySort_nodup ((List.nodup_dedup _).map hmkinj)
  · intro c hc
    cases h : e.soup with
    | none => simp [extract_colors, h] at hc
    | some roots =>
      rw [mem_extract_colors e roots h c] at hc
      obtain ⟨c0, hc0, rfl⟩ := hc
      have hsrcs : extractorStyleSources e = styleSources roots := by
        simp [extractorStyleSources, h]
      simp only [colorFindsAll, List.mem_append, List.mem_flatMap,
        List.mem_map] at hc0
      have hdata : (String.mk (cleanColor c0)).data = cleanColor c0 := rfl
      rcases hc0 with ⟨st, hst, hfind⟩ | ⟨st, hst, hfind⟩
      · obtain ⟨el, hel, rfl⟩ := hst
        have hsrc : getAttrD "style" el ∈ extractorStyleSources e := by
          rw [hsrcs]
          exact List.mem_append.mpr (Or.inl (List.mem_map.mpr ⟨el, hel, rfl⟩))
        simp only [inlineColorFinds, List.mem_append] at hfind
        rcases hfind with ((hx | hx) | hx) | hx
        · left
          have hhex := mem_pyFindall tryHexAt (fun g => matchesHex36 g = true)
            (fun s v r hsv => tryHexAt_spec s v r hsv) _ _ hx
          exact ⟨c0, by rw [hdata, cleanColor_hexGroup c0 hhex], hhex⟩
        · right
          have hhead := mem_pyFindall tryRgbAt
            (fun v => ∃ d m2, v = d :: m2 ∧ charLower d = charLower 'r')
            (fun s v r hsv => (tryRgbAt_spec s v r hsv).2.2) _ _ hx
          obtain ⟨d, m2, rfl, hd⟩ := hhead
          have hclean := cleanColor_fnMatch d m2 (Or.inl (by simpa using hd))
          rw [hdata, hclean]
          exact ⟨_, hsrc, Or.inl hx,
            pyFindall_infix tryRgbAt
              (fun s v r hsv => ⟨(tryRgbAt_spec s v r hsv).1,
                (tryRgbAt_spec s v r hsv).2.1⟩) _ _ hx⟩
        · right
          have hhead := mem_pyFindall tryRgbaAt
            (fun v => ∃ d m2, v = d :: m2 ∧ charLower d = charLower 'r')
            (fun s v r hsv => (tryRgbaAt_spec s v r hsv).2.2) _ _ hx
          obtain ⟨d, m2, rfl, hd⟩ := hhead
          have hclean := cleanColor_fnMatch d m2 (Or.inl (by simpa using hd))
          rw [hdata, hclean]
          exact ⟨_, hsrc, Or.inr (Or.inl hx),
            pyFindall_infix tryRgbaAt
              (fun s v r hsv => ⟨(tryRgbaAt_spec s v r hsv).1,
                (tryRgbaAt_spec s v r hsv).2.1⟩) _ _ hx⟩
        · right
          have hhead := mem_pyFindall tryHslAt
            (fun v => ∃ d m2, v = d :: m2 ∧ charLower d = charLower 'h')
            (fun s v r hsv => (tryHslAt_spec s v r hsv).2.2) _ _ hx
          obtain ⟨d, m2, rfl, hd⟩ := hhead
          have hclean := cleanColor_fnMatch d m2 (Or.inr (by simpa using hd))
          rw [hdata, hclean]
          exact ⟨_, hsrc, Or.inr (Or.inr hx),
            pyFindall_infix tryHslAt
              (fun s v r hsv => ⟨(tryHslAt_spec s v r hsv).1,
                (tryHslAt_spec s v r hsv).2.1⟩) _ _ hx⟩
      · obtain ⟨el, hel, rfl⟩ := hst
        have hsrc : textOf el ∈ extractorStyleSources e := by
          rw [hsrcs]
          exact List.mem_append.mpr (Or.inr (List.mem_map.mpr ⟨el, hel, rfl⟩))
        simp only [blockColorFinds, List.mem_append, List.mem_map] at hfind
        rcases hfind with ((⟨g, hg, rfl⟩ | hx) | hx) | hx
        · left
          have hhex := mem_pyFindall tryHexAt (fun g => matchesHex36 g = true)
            (fun s v r hsv => tryHexAt_spec s v r hsv) _ _ hg
          exact ⟨g, by rw [hdata, cleanColor_hash], hhex⟩
        · right
          have hhead := mem_pyFindall tryRgbAt
            (fun v => ∃ d m2, v = d :: m2 ∧ charLower d = charLower 'r')
            (fun s v r hsv => (tryRgbAt_spec s v r hsv).2.2) _ _ hx
          obtain ⟨d, m2, rfl, hd⟩ := hhead
          have hclean := cleanColor_fnMatch d m2 (Or.inl (by simpa using hd))
          rw [hdata, hclean]
          exact ⟨_, hsrc, Or.inl hx,
            pyFindall_infix tryRgbAt
              (fun s v r hsv => ⟨(tryRgbAt_spec s v r hsv).1,
                (tryRgbAt_spec s v r hsv).2.1⟩) _ _ hx⟩
        · right
          have hhead := mem_pyFindall tryRgbaAt
            (fun v => ∃ d m2, v = d :: m2 ∧ charLower d = charLower 'r')
            (fun s v r hsv => (tryRgbaAt_spec s v r hsv).2.2) _ _ hx
          obtain ⟨d, m2, rfl, hd⟩ := hhead
          have hclean := cleanColor_fnMatch d m2 (Or.inl (by simpa using hd))
          rw [hdata, hclean]
          exact ⟨_, hsrc, Or.inr (Or.inl hx),
            pyFindall_infix tryRgbaAt
              (fun s v r hsv => ⟨(tryRgbaAt_spec s v r hsv).1,
                (tryRgbaAt_spec s v r hsv).2.1⟩) _ _ hx⟩
        · right
          have hhead := mem_pyFindall tryHslAt
            (fun v => ∃ d m2, v = d :: m2 ∧ charLower d = charLower 'h')
            (fun s v r hsv => (tryHslAt_spec s v r hsv).2.2) _ _ hx
          obtain ⟨d, m2, rfl, hd⟩ := hhead
          have hclean := cleanColor_fnMatch d m2 (Or.inr (by simpa using hd))
          rw [hdata, hclean]
          exact ⟨_, hsrc, Or.inr (Or.inr hx),
            pyFindall_infix tryHslAt
              (fun s v r hsv => ⟨(tryHslAt_spec s v r hsv).1,
                (tryHslAt_spec s v r hsv).2.1⟩) _ _ hx⟩

/-- Witness for `C4_extract_colors` on the concrete colors document. -/
theorem C4_extract_colors_witness :
    (∃ g, ("#FFF" : String).data = '#' :: g ∧ matchesHex36 g = true) ∨
    (∃ src ∈ extractorStyleSources colorsExtractor,
      (("#FFF" : String).data ∈ pyFindall tryRgbAt src.data ∨
       ("#FFF" : String).data ∈ pyFindall tryRgbaAt src.data ∨
       ("#FFF" : String).data ∈ pyFindall tryHslAt src.data) ∧
      ("#FFF" : String).data <:+: src.data) :=
  (C4_extract_colors colorsExtractor).2.2.1 "#FFF" (by decide)


/-! ## Claim C5 -/

/-- Unfolding membership in `extract_fonts`. -/
theorem mem_extract_fonts (e : WebsiteExtractor) (roots : List HNode)
    (h : e.soup = some roots) (f : String) :
    f ∈ extract_fonts e ↔
      ∃ t, (t ∈ fontTokensAll roots ∨ t ∈ fontFaceCleaned roots) ∧
        f = String.mk t := by
  simp only [extract_fonts, h, mem_pySort, List.mem_dedup, List.mem_map,
    List.mem_append]
  constructor
  · rintro ⟨t, ht, rfl⟩
    exact ⟨t, ht, rfl⟩
  · rintro ⟨t, ht, rfl⟩
    exact ⟨t, ht, rfl⟩

/-- C5: `extract_fonts` splits each `font-family` declaration value on
commas, strips whitespace then surrounding single/double quotes from each
token, discards empty tokens, additionally adds the (whitespace-stripped)
family name captured from each `@font-face` block, and returns the
duplicate-free result in lexicographic sort order; concretely,
`style="font-family: 'Open Sans', Arial"` yields `["Arial", "Open Sans"]`
and a `@font-face` block whose `font-family` is not its first declaration
yields that family name. -/
theorem C5_extract_fonts (e : WebsiteExtractor) (roots : List HNode)
    (hsoup : e.soup = some roots) :
    (extract_fonts e).Sorted (· ≤ ·) ∧
    (extract_fonts e).Nodup ∧
    (∀ f ∈ extract_fonts e,
      (∃ fam ∈ fontFamilyDecls roots, f.data ∈ cleanFontTokens fam) ∨
      (∃ g ∈ fontFaceNames roots, f.data = stripWs g ∧ f.data ≠ [])) ∧
    (∀ fam ∈ fontFamilyDecls roots, ∀ tok ∈ cleanFontTokens fam,
      String.mk tok ∈ extract_fonts e) ∧
    (∀ g ∈ fontFaceNames roots, stripWs g ≠ [] →
      String.mk (stripWs g) ∈ extract_fonts e) ∧
    (∀ fam tok, tok ∈ cleanFontTokens fam →
      tok ≠ [] ∧ ∃ raw ∈ splitChar ',' fam, tok = stripQuotes (stripWs raw)) ∧
    extract_fonts fontsExtractor = ["Arial", "Open Sans"] ∧
    extract_fonts fontFaceExtractor = ["MyFont"] := by
  refine ⟨?_, ?_, ?_, ?_, ?_, ?_, by decide, by decide⟩
  · simp only [extract_fonts, hsoup]
    exact pySort_sorted _
  · simp only [extract_fonts, hsoup]
    exact pySort_nodup (List.nodup_dedup _)
  · intro f hf
    rw [mem_extract_fonts e roots hsoup f] at hf
    obtain ⟨t, ht, rfl⟩ := hf
    have hdata : (String.mk t).data = t := rfl
    rcases ht with ht | ht
    · left
      simp only [fontTokensAll, List.mem_flatMap] at ht
      obtain ⟨fam, hfam, htok⟩ := ht
      exact ⟨fam, hfam, by rw [hdata]; exact htok⟩
    · right
      simp only [fontFaceCleaned, List.mem_filterMap] at ht
      obtain ⟨g, hg, heq⟩ := ht
      by_cases hc : stripWs g ≠ []
      · rw [if_pos hc] at heq
        obtain rfl := Option.some.inj heq
        exact ⟨g, hg, rfl, hc⟩
      · rw [if_neg hc] at heq
        exact absurd heq (by simp)
  · intro fam hfam tok htok
    rw [mem_extract_fonts e roots hsoup]
    exact ⟨tok, Or.inl (List.mem_flatMap.mpr ⟨fam, hfam, htok⟩), rfl⟩
  · intro g hg hne
    rw [mem_extract_fonts e roots hsoup]
    refine ⟨stripWs g, Or.inr (List.mem_filterMap.mpr ⟨g, hg, ?_⟩), rfl⟩
    rw [if_pos hne]
  · intro fam tok htok
    simp only [cleanFontTokens, List.mem_filterMap] at htok
    obtain ⟨raw, hraw, heq⟩ := htok
    by_cases hc : stripQuotes (stripWs raw) ≠ []
    · rw [if_pos hc] at heq
      obtain rfl := Option.some.inj heq
      exact ⟨hc, raw, hraw, rfl⟩
    · rw [if_neg hc] at heq
      exact absurd heq (by simp)

/-- Witness for `C5_extract_fonts`: `Arial` comes from a declaration
token. -/
theorem C5_extract_fonts_witness :
    (∃ fam ∈ fontFamilyDecls fontsDoc,
      ("Arial" : String).data ∈ cleanFontTokens fam) ∨
    (∃ g ∈ fontFaceNames fontsDoc,
      ("Arial" : String).data = stripWs g ∧ ("Arial" : String).data ≠ []) :=
  (C5_extract_fonts fontsExtractor fontsDoc rfl).2.2.1 "Arial" (by decide)

/-! ## Claim C3 -/

theorem startsWithL_take : ∀ (pre s : List Char),
    startsWithL pre s = true → s.take pre.length = pre
  | [], s => fun _ => by simp
  | p :: ps, [] => fun h => by simp [startsWithL] at h
  | p :: ps, c :: cs => fun h => by
    simp only [startsWithL, Bool.and_eq_true, decide_eq_true_eq] at h
    simp only [List.length_cons, List.take_succ_cons,
      startsWithL_take ps cs h.2, h.1]

theorem startsWithL_append : ∀ (pre x : List Char),
    startsWithL pre (pre ++ x) = true
  | [], x => rfl
  | p :: ps, x => by
    simp [List.cons_append, startsWithL, startsWithL_append ps x]

theorem httpTokenAt_spec (s : List Char) (n : Nat) (m r : List Char)
    (h : httpTokenAt s n = some (m, r)) :
    (∃ body, body <+: s.drop n ∧ body ≠ [] ∧ m = s.take n ++ body) ∧
      m <:+: s ∧ r <:+ s := by
  simp only [httpTokenAt] at h
  by_cases hb : (s.drop n).takeWhile notTokenDelim = []
  · rw [if_pos hb] at h
    exact absurd h (by simp)
  · rw [if_neg hb] at h
    simp only [Option.some.injEq, Prod.mk.injEq] at h
    obtain ⟨hm, hr⟩ := h
    obtain ⟨t, ht⟩ := List.takeWhile_prefix (l := s.drop n) (p := notTokenDelim)
    refine ⟨⟨_, List.takeWhile_prefix _, hb, hm.symm⟩, ?_, ?_⟩
    · have hms : m ++ t = s := by
        rw [← hm, List.append_assoc, ht, List.take_append_drop]
      exact (show m <+: s from ⟨t, hms⟩).isInfix
    · rw [← hr]
      exact (List.drop_suffix _ _).trans (List.drop_suffix _ _)

theorem tryHttpAt_spec (s m r : List Char) (h : tryHttpAt s = some (m, r)) :
    (startsWithL "http://".data m = true ∨
      startsWithL "https://".data m = true) ∧ m <:+: s ∧ r <:+ s := by
  simp only [tryHttpAt] at h
  by_cases h8 : startsWithL "https://".data s = true
  · rw [if_pos h8] at h
    obtain ⟨⟨body, hbp, hbne, hm⟩, hinf, hsuf⟩ := httpTokenAt_spec s 8 m r h
    refine ⟨Or.inr ?_, hinf, hsuf⟩
    have ht : s.take 8 = "https://".data := startsWithL_take _ _ h8
    rw [hm, ht]
    exact startsWithL_append _ _
  · rw [if_neg h8] at h
    by_cases h7 : startsWithL "http://".data s = true
    · rw [if_pos h7] at h
      obtain ⟨⟨body, hbp, hbne, hm⟩, hinf, hsuf⟩ := httpTokenAt_spec s 7 m r h
      refine ⟨Or.inl ?_, hinf, hsuf⟩
      have ht : s.take 7 = "http://".data := startsWithL_take _ _ h7
      rw [hm, ht]
      exact startsWithL_append _ _
    · rw [if_neg h7] at h
      exact absurd h (by simp)

mutual

theorem mem_findAllN_true (p : HNode → Bool) (el : HNode) :
    ∀ (n : HNode),
      el ∈ findAllN p n ↔ p el = true ∧ el ∈ findAllN (fun _ => true) n
  | .elem t a s cs => by
    simp only [findAllN, List.mem_append, if_pos, if_true]
    constructor
    · intro h
      rcases h with h | h
      · by_cases hp : p (.elem t a s cs) = true
        · rw [if_pos hp] at h
          simp only [List.mem_singleton] at h
          subst h
          exact ⟨hp, Or.inl (by simp)⟩
        · rw [if_neg hp] at h
          simp at h
      · have h2 := (mem_findAllL_true p el cs).mp h
        exact ⟨h2.1, Or.inr h2.2⟩
    · rintro ⟨hp, h | h⟩
      · simp only [List.mem_singleton] at h
        subst h
        rw [if_pos hp]
        exact Or.inl (by simp)
      · exact Or.inr ((mem_findAllL_true p el cs).mpr ⟨hp, h⟩)

theorem mem_findAllL_true (p : HNode → Bool) (el : HNode) :
    ∀ (l : List HNode),
      el ∈ findAllL p l ↔ p el = true ∧ el ∈ findAllL (fun _ => true) l
  | [] => by simp [findAllL]
  | c :: cs => by
    simp only [findAllL, List.mem_append]
    rw [mem_findAllN_true p el c, mem_findAllL_true p el cs]
    tauto

end

mutual

theorem allNodes_transN : ∀ (n m el : HNode),
    m ∈ findAllN (fun _ => true) n →
    el ∈ findAllL (fun _ => true) (childrenOf m) →
    el ∈ findAllN (fun _ => true) n
  | .elem t a s cs, m, el => fun hm hel => by
    simp only [findAllN, if_pos, List.mem_append, List.mem_singleton] at hm ⊢
    rcases hm with rfl | hm
    · exact Or.inr hel
    · exact Or.inr (allNodes_transL cs m el hm hel)

theorem allNodes_transL : ∀ (l : List HNode) (m el : HNode),
    m ∈ findAllL (fun _ => true) l →
    el ∈ findAllL (fun _ => true) (childrenOf m) →
    el ∈ findAllL (fun _ => true) l
  | c :: cs, m, el => fun hm hel => by
    simp only [findAllL, List.mem_append] at hm ⊢
    rcases hm with hm | hm
    · exact Or.inl (allNodes_transN c m el hm hel)
    · exact Or.inr (allNodes_transL cs m el hm hel)
  | [], m, el => fun hm _ => by simp [findAllL] at hm

end

/-- C3: in `extract_images`, every URL taken from a plain `<img srcset>`
attribute is one of the verbatim `https?://...` tokens the pattern finds in
the attribute value (no resolution against the base), while every URL
contributed by a `<source srcset>` element that is a descendant of a
`<picture>` is a token resolved against the page URL and kept only when the
resolved URL ends, case-insensitively, in a known image extension (and it
reaches the `extract_images` result); on the concrete document the relative
`img/a.png` of the `<img srcset>` is dropped while its absolute token and
the `<source>` tokens with image extensions are kept. -/
theorem C3_srcset_asymmetry (e : WebsiteExtractor) (roots : List HNode)
    (hsoup : e.soup = some roots) :
    (∀ u ∈ imgSrcsetUrls roots,
      (startsWithL "http://".data u.data = true ∨
        startsWithL "https://".data u.data = true) ∧
      ∃ img ∈ findAllL (fun n => tagOf n = "img" ∧ hasAttr "srcset" n) roots,
        u.data ∈ pyFindall tryHttpAt (getAttrD "srcset" img).data ∧
        u.data <:+: (getAttrD "srcset" img).data) ∧
    (∀ pic ∈ findAllL (fun n => tagOf n = "picture") roots,
      ∀ el ∈ findAllL (fun _ => true) (childrenOf pic),
        tagOf el = "source" → hasAttr "srcset" el = true →
        ∀ u ∈ sourceSrcsetOf e.url el,
          (∃ tok ∈ pyFindall tryTokenAt (getAttrD "srcset" el).data,
            u = urljoin e.url (String.mk (pySplitHead tok)) ∧
            endsWithAnyLower image_extensions u = true) ∧
          u ∈ extract_images e) ∧
    extract_images srcsetExtractor =
      ["https://c.dn/b.png", "https://x.com/img/a.png"] := by
  refine ⟨?_, ?_, by decide⟩
  · intro u hu
    simp only [imgSrcsetUrls, List.mem_flatMap, List.mem_map] at hu
    obtain ⟨img, himg, v, hv, rfl⟩ := hu
    have hdata : (String.mk v).data = v := rfl
    rw [hdata]
    constructor
    · exact mem_pyFindall tryHttpAt
        (fun w => startsWithL "http://".data w = true ∨
          startsWithL "https://".data w = true)
        (fun s w r hw => (tryHttpAt_spec s w r hw).1) _ _ hv
    · exact ⟨img, himg, hv,
        pyFindall_infix tryHttpAt
          (fun s w r hw => ⟨(tryHttpAt_spec s w r hw).2.1,
            (tryHttpAt_spec s w r hw).2.2⟩) _ _ hv⟩
  · intro pic hpic el hel htag hattr u hu
    constructor
    · simp only [sourceSrcsetOf, List.mem_filterMap] at hu
      obtain ⟨tok, htok, heq⟩ := hu
      by_cases hc : endsWithAnyLower image_extensions
          (urljoin e.url (String.mk (pySplitHead tok))) = true
      · rw [if_pos hc] at heq
        obtain rfl := Option.some.inj heq
        exact ⟨tok, htok, rfl, hc⟩
      · rw [if_neg hc] at heq
        exact absurd heq (by simp)
    · have help : el ∈ findAllL
          (fun n => tagOf n = "source" ∧ hasAttr "srcset" n) roots := by
        rw [mem_findAllL_true]
        constructor
        · simp [htag, hattr]
        · have hpicAll : pic ∈ findAllL (fun _ => true) roots :=
            ((mem_findAllL_true _ pic roots).mp hpic).2
          exact allNodes_transL roots pic el hpicAll hel
      simp only [extract_images, hsoup, List.mem_dedup, List.mem_append]
      refine Or.inl (Or.inr ?_)
      simp only [sourceSrcsetUrls, List.mem_flatMap]
      exact ⟨el, help, hu⟩

/-- Witness for `C3_srcset_asymmetry` at the concrete document: the
resolved `<source srcset>` token is in the images list. -/
theorem C3_srcset_asymmetry_witness :
    (∃ tok ∈ pyFindall tryTokenAt (getAttrD "srcset" srcsetSource).data,
      "https://x.com/img/a.png" =
        urljoin srcsetExtractor.url (String.mk (pySplitHead tok)) ∧
      endsWithAnyLower image_extensions "https://x.com/img/a.png" = true) ∧
    "https://x.com/img/a.png" ∈ extract_images srcsetExtractor :=
  (C3_srcset_asymmetry srcsetExtractor srcsetDoc rfl).2.1 srcsetPicture
    (by simp [srcsetDoc, srcsetPicture, srcsetSource, findAllL, findAllN,
      tagOf])
    srcsetSource
    (by simp [srcsetPicture, srcsetSource, childrenOf, findAllL, findAllN])
    (by decide) (by decide) "https://x.com/img/a.png" (by decide)

end SitePeek
